import Mathlib

/-!
Verification development for the veridion repository.

Part A embeds `src/tools/extract-logo.py` (the logo-candidate scorer):
URLs are plain strings; `urljoin`/`urlparse` from Python's `urllib.parse`
are modelled for the URL forms the program exercises (absolute
`scheme://netloc/path` references, scheme-relative `//…`, root-relative
`/…` and plain relative references, without `..`/`.` segment squashing and
without separating query or fragment components).  The BeautifulSoup parse
of the HTML input is modelled as a `Doc` value holding exactly the query
results the program reads: the JSON-LD script blocks in document order, the
icon `link` tags, the first `og:image` meta tag and every `img` tag with
its ancestor chain (innermost first).  Python exceptions are modelled with
`Option`; the candidate dictionary is an insertion-ordered association
list; a Python `set` of strings is modelled by its contents in insertion
order, and the serialization order of `list(set)` — which CPython does not
fix across processes — is an explicit parameter of the result writer.

Part B embeds `src/4-cluster-logos.py` (perceptual-hash clustering):
an `ImageHash` is the flattened bit array of the hash and subtraction of
two hashes is the count of differing bits, as in the `imagehash` library.
The union-find recursion of `find_cluster` is embedded with a fuel
parameter; the embedded `main` passes `domains.length` fuel, which the
accompanying lemmas show always suffices.
-/

/-- A single-quote character, kept as a named constant so reason labels can
be assembled without quote literals inside string literals. -/
def sQuote : String := String.mk [Char.ofNat 39]

/-- Lowercasing, character by character (`str.lower()` for the ASCII
range the heuristics use). -/
def strToLower (s : String) : String := String.mk (s.toList.map Char.toLower)

/-- Strip leading and trailing whitespace (`str.strip()`). -/
def strTrim (s : String) : String :=
  String.mk (((s.toList.dropWhile Char.isWhitespace).reverse.dropWhile
    Char.isWhitespace).reverse)

/-- `str.startswith(pre)`. -/
def strStartsWith (s pre : String) : Bool := pre.toList.isPrefixOf s.toList

/-- Drop the first `n` characters. -/
def strDrop (s : String) (n : Nat) : String := String.mk (s.toList.drop n)

/-- Split a character list at every occurrence of `c` (`str.split(c)`). -/
def splitOnChar (c : Char) : List Char → List (List Char)
  | [] => [[]]
  | x :: rest =>
    if x == c then [] :: splitOnChar c rest
    else
      match splitOnChar c rest with
      | [] => [[x]]
      | g :: gs => (x :: g) :: gs

/-- Whether `needle` occurs as a contiguous sublist starting at some
position of `hay`. -/
def subListAt (needle : List Char) : List Char → Bool
  | [] => needle.isEmpty
  | c :: rest => needle.isPrefixOf (c :: rest) || subListAt needle rest

/-- Substring test used to model Python's `in` on strings and
`re.search` with an alternation of plain literals. -/
def containsSub (hay needle : String) : Bool :=
  subListAt needle.toList hay.toList

/-- Models `urllib.parse`'s scheme detection: a leading run of
alphanumeric, `+`, `-` or `.` characters followed by `:`, starting with a
letter.  Returns the scheme and the remainder after the colon. -/
def schemeSplit (s : String) : Option (String × String) :=
  let l := s.toList
  let pre := l.takeWhile fun c => c.isAlphanum || c == '+' || c == '-' || c == '.'
  if pre.length = 0 then none
  else if pre.length < l.length then
    match l.head? with
    | some c0 =>
      if c0.isAlpha && l.get? pre.length == some ':' then
        some (String.mk pre, String.mk (l.drop (pre.length + 1)))
      else none
    | none => none
  else none

/-- Models `urllib.parse.urlparse` restricted to scheme, netloc and path
(query and fragment are kept inside the path; the program never uses
them).  The scheme is lowercased as `urlparse` does. -/
def urlparse3 (s : String) : String × String × String :=
  match schemeSplit s with
  | none =>
    if strStartsWith s "//" then
      let r := (strDrop s 2).toList
      let netloc := r.takeWhile fun c => !(c == '/')
      ("", String.mk netloc, String.mk (r.drop netloc.length))
    else ("", "", s)
  | some (sc, rest) =>
    if strStartsWith rest "//" then
      let r := (strDrop rest 2).toList
      let netloc := r.takeWhile fun c => !(c == '/')
      (strToLower sc, String.mk netloc, String.mk (r.drop netloc.length))
    else (strToLower sc, "", rest)

/-- The netloc component of a URL, as `urlparse(url).netloc`. -/
def netlocOf (s : String) : String := (urlparse3 s).2.1

/-- The path component of a URL, as `urlparse(url).path` (with the model
restriction that query/fragment are part of it). -/
def pathOf (s : String) : String := (urlparse3 s).2.2

/-- The directory part of a path used when joining a plain relative
reference: everything up to and including the last `/`, or `/` when the
base path has no segments. -/
def dirPart (p : String) : String :=
  String.intercalate "/" ((splitOnChar (Char.ofNat 47) p.toList).dropLast.map String.mk) ++ "/"

/-- Models `urllib.parse.urljoin` for the reference forms the program
uses: a reference with its own scheme replaces the base; `//…` keeps the
base scheme; `/…` keeps scheme and netloc; anything else is resolved
against the directory of the base path; an empty reference yields the
base. -/
def urljoin (base url : String) : String :=
  if url = "" then base
  else
    match schemeSplit url with
    | some _ => url
    | none =>
      let b := urlparse3 base
      if strStartsWith url "//" then b.1 ++ ":" ++ url
      else if strStartsWith url "/" then b.1 ++ "://" ++ b.2.1 ++ url
      else b.1 ++ "://" ++ b.2.1 ++ dirPart b.2.2 ++ url

/-- Embeds `normalize_url` from `src/tools/extract-logo.py`: falsy URLs
yield `None`; otherwise the stripped URL is joined to the base and kept
only when the result starts (case-insensitively) with `http://` or
`https://`. -/
def normalize_url (base : String) (url : Option String) : Option String :=
  match url with
  | none => none
  | some u =>
    if u = "" then none
    else
      let full := urljoin base (strTrim u)
      if strStartsWith (strToLower full) "http://" ||
          strStartsWith (strToLower full) "https://" then
        some full
      else none

/-- Embeds `extract_domain_stem`: the netloc without a leading `www.`,
cut at the first `.`, lowercased. -/
def extract_domain_stem (url : String) : String :=
  let netloc := netlocOf url
  let n2 := if strStartsWith netloc "www." then strDrop netloc 4 else netloc
  strToLower (String.mk ((splitOnChar (Char.ofNat 46) n2.toList).headD []))

/-- Embeds `is_home_link`: the href, resolved against the base, must have
the same netloc and a path among `""`, `/`, `/index.html`, `/index.php`. -/
def is_home_link (base_url : String) (href : Option String) : Bool :=
  match href with
  | none => false
  | some h =>
    if h = "" then false
    else
      match normalize_url base_url (some h) with
      | none => false
      | some abs_href =>
        netlocOf base_url == netlocOf abs_href &&
          (pathOf abs_href == "" || pathOf abs_href == "/" ||
           pathOf abs_href == "/index.html" || pathOf abs_href == "/index.php")

/-- A BeautifulSoup attribute value: either a plain string or a
multi-valued (list) attribute. -/
inductive AttrVal where
  | str (s : String)
  | list (l : List String)
deriving DecidableEq

/-- Embeds `get_str_attr`: strings pass through, the first element of a
non-empty list is taken, anything else is `None`. -/
def get_str_attr (v : Option AttrVal) : Option String :=
  match v with
  | some (.str s) => some s
  | some (.list (x :: _)) => some x
  | some (.list []) => none
  | none => none

/-- A JSON value as produced by `json.loads` (numbers restricted to
integers, which is all the logo heuristics could ever receive). -/
inductive JVal where
  | null
  | bool (b : Bool)
  | num (n : Int)
  | str (s : String)
  | arr (items : List JVal)
  | obj (fields : List (String × JVal))

/-- Key lookup in a JSON object (keys are unique after `json.loads`). -/
def jLookup (k : String) : List (String × JVal) → Option JVal
  | [] => none
  | kv :: rest => if kv.1 = k then some kv.2 else jLookup k rest

/-- Python truthiness of a JSON value, used by the `if not url` check in
`normalize_url` when a JSON-LD logo value reaches it. -/
def pyTruthy : JVal → Bool
  | .null => false
  | .bool b => b
  | .num n => !(n == 0)
  | .str s => !(s == "")
  | .arr l => !l.isEmpty
  | .obj o => !o.isEmpty

mutual

/-- Embeds the nested `find_logo` of `analyze_html`: on an `Organization`,
`Brand` or `Corporation` object, a string `logo` value or the `url` field
of an object `logo` value is collected (the `url` field is collected as a
raw JSON value, exactly as the Python appends the `url` entry without a
type check); then every value of the object is searched recursively, and
lists are searched element-wise. -/
def find_logo : JVal → List JVal
  | .obj fields =>
    let own :=
      match jLookup "@type" fields with
      | some tv =>
        if (match tv with
            | .str s => s == "Organization" || s == "Brand" || s == "Corporation"
            | _ => false) then
          match jLookup "logo" fields with
          | some (.str s) => [JVal.str s]
          | some (.obj lf) =>
            match jLookup "url" lf with
            | some u => [u]
            | none => []
          | some _ => []
          | none => []
        else []
      | none => []
    own ++ find_logo_fields fields
  | .arr items => find_logo_list items
  | _ => []

/-- Recursive search over the values of a JSON object, in field order. -/
def find_logo_fields : List (String × JVal) → List JVal
  | [] => []
  | kv :: rest => find_logo kv.2 ++ find_logo_fields rest

/-- Recursive search over the elements of a JSON array, in order. -/
def find_logo_list : List JVal → List JVal
  | [] => []
  | v :: rest => find_logo v ++ find_logo_list rest

end

/-- One scored logo candidate: cumulative score and the contents of its
`reasons` set, listed in insertion order. -/
structure Cand where
  score : Int
  reasons : List String
deriving DecidableEq

/-- The candidate dictionary: an insertion-ordered association list from
normalized URL to candidate data. -/
abbrev Cands := List (String × Cand)

/-- Set insertion for the `reasons` set: adding an element that is already
present changes nothing. -/
def addReason (rs : List String) (r : String) : List String :=
  if r ∈ rs then rs else rs ++ [r]

/-- Association-list lookup in the candidate dictionary. -/
def getCand : Cands → String → Option Cand
  | [], _ => none
  | kv :: rest, u => if kv.1 = u then some kv.2 else getCand rest u

/-- Dictionary upsert for one normalized URL: a new entry starts at score
0, then the reason is added to the set and the score is raised to the new
score only if it is larger. -/
def upsert (nu : String) (score : Int) (reason : String) : Cands → Cands
  | [] => [(nu, ⟨if score > 0 then score else 0, [reason]⟩)]
  | kv :: rest =>
    if kv.1 = nu then
      (kv.1, ⟨if score > kv.2.score then score else kv.2.score,
              addReason kv.2.reasons reason⟩) :: rest
    else kv :: upsert nu score reason rest

/-- Embeds the inner `update_candidate` of `analyze_html`: normalize the
URL, drop it when normalization fails, otherwise upsert. -/
def update_candidate (base : String) (cands : Cands) (url : Option String)
    (score : Int) (reason : String) : Cands :=
  match normalize_url base url with
  | none => cands
  | some nu => upsert nu score reason cands

/-- Embeds the per-block JSON-LD candidate loop, including its failure
semantics: a string logo value is upserted with score 60; a falsy
non-string value makes `normalize_url` return `None` and is skipped; a
truthy non-string value raises on `.strip()`, aborting the rest of the
block while keeping the candidates already recorded. -/
def processLogoList (base : String) (cands : Cands) : List JVal → Cands
  | [] => cands
  | .str s :: rest =>
    processLogoList base
      (update_candidate base cands (some s) 60 "Schema.org Organization") rest
  | v :: rest =>
    if pyTruthy v then cands else processLogoList base cands rest

/-- Embeds processing of one `<script type="application/ld+json">` block:
`none` models a block whose string is missing or whose `json.loads`
raises, which is skipped silently. -/
def processScript (base : String) (cands : Cands) (s : Option JVal) : Cands :=
  match s with
  | none => cands
  | some j => processLogoList base cands (find_logo j)

/-- A `link` tag matched by the icon `rel` filter. -/
structure LinkTag where
  href : Option AttrVal
deriving DecidableEq

/-- The `meta property="og:image"` tag. -/
structure MetaTag where
  content : Option AttrVal
deriving DecidableEq

/-- Embeds the favicon/touch-icon loop body for one matched link tag. -/
def processIcon (base : String) (cands : Cands) (lt : LinkTag) : Cands :=
  match get_str_attr lt.href with
  | some h => if h = "" then cands else update_candidate base cands (some h) 10 "Favicon/Touch Icon"
  | none => cands

/-- Embeds the OpenGraph image step. -/
def processOg (base : String) (cands : Cands) (og : Option MetaTag) : Cands :=
  match og with
  | none => cands
  | some m =>
    match get_str_attr m.content with
    | some c => if c = "" then cands else update_candidate base cands (some c) 5 "OpenGraph Image"
    | none => cands

/-- One ancestor of an `img` tag, as BeautifulSoup exposes it: tag name,
`class` and `id` attributes and (for `a` tags) the `href` attribute. -/
structure PNode where
  name : String
  cls : Option AttrVal
  id : Option AttrVal
  href : Option AttrVal
deriving DecidableEq

/-- An `img` tag with its attributes and its ancestor chain, innermost
ancestor first (the order of BeautifulSoup's `.parents`). -/
structure Img where
  src : Option AttrVal
  alt : Option AttrVal
  cls : Option AttrVal
  id : Option AttrVal
  parents : List PNode
deriving DecidableEq

/-- The class/id tokens one parent contributes to `parent_classes`:
classes first (a list extends, a string appends), then the id. -/
def pnodeTokens (p : PNode) : List String :=
  (match p.cls with
   | some (.list l) => l
   | some (.str s) => [s]
   | none => []) ++
  (match p.id with
   | some (.str s) => [s]
   | some (.list l) => l
   | none => [])

/-- An attribute rendered as the string the img loop uses: missing
becomes `""`, a list is space-joined. -/
def attrStrJoined (v : Option AttrVal) : String :=
  match v with
  | none => ""
  | some (.str s) => s
  | some (.list l) => String.intercalate " " l

/-- The `logo|brand|identity` regex with `re.I`, searched in a string. -/
def posKeyword (s : String) : Bool :=
  containsSub (strToLower s) "logo" || containsSub (strToLower s) "brand" ||
    containsSub (strToLower s) "identity"

/-- The `partner|client|sponsor|payment|manufacturer` regex with `re.I`. -/
def negKeyword (s : String) : Bool :=
  containsSub (strToLower s) "partner" || containsSub (strToLower s) "client" ||
    containsSub (strToLower s) "sponsor" || containsSub (strToLower s) "payment" ||
    containsSub (strToLower s) "manufacturer"

/-- The home-link heuristic: +50 when the innermost enclosing anchor's
string href is a home link (the other-domain branch of the Python code is
a `pass`). -/
def homeBonus (base : String) (parents : List PNode) : Int × List String :=
  match (parents.filter fun p => p.name == "a").head? with
  | some a =>
    match a.href with
    | some (.str h) =>
      if is_home_link base (some h) then (50, ["Linked to Home"]) else (0, [])
    | _ => (0, [])
  | none => (0, [])

/-- The header/footer heuristic on the ancestor names and the joined
ancestor class/id string. -/
def headerFooterBonus (parentNames : List String) (parentClassStr : String) :
    Int × List String :=
  if parentNames.contains "header" || containsSub (strToLower parentClassStr) "header" then
    (10, ["In Header"])
  else if parentNames.contains "footer" ||
      containsSub (strToLower parentClassStr) "footer" then
    (-30, ["In Footer"])
  else (0, [])

/-- The positive-keyword heuristic on the combined img attribute string. -/
def keywordBonus (imgAttrs : String) : Int × List String :=
  if posKeyword imgAttrs then (20, ["Keyword Match (logo/brand)"]) else (0, [])

/-- The domain-stem heuristic on the raw src string. -/
def stemBonus (stem src : String) : Int × List String :=
  if !(stem == "") && containsSub (strToLower src) stem then
    (20, ["Filename matches domain " ++ sQuote ++ stem ++ sQuote])
  else (0, [])

/-- The alt-text heuristic. -/
def altBonus (altVal : String) : Int × List String :=
  if containsSub (strToLower altVal) "logo" then
    (10, ["Alt text contains " ++ sQuote ++ "logo" ++ sQuote])
  else (0, [])

/-- The negative-keyword penalty on the img attribute string and the
ancestor class/id string. -/
def negativePenalty (imgAttrs parentClassStr : String) : Int × List String :=
  if negKeyword imgAttrs || negKeyword parentClassStr then
    (-50, ["Negative Keyword (partner/client)"])
  else (0, [])

/-- The score and reason list the img loop computes for one image with
raw src string `src`, mirroring the body of the `for img in images` loop. -/
def imgScoreReasons (base stem : String) (img : Img) (src : String) :
    Int × List String :=
  let parentNames := img.parents.map (·.name)
  let parentClassStr := String.intercalate " " (img.parents.map pnodeTokens).flatten
  let h1 := homeBonus base img.parents
  let h2 := headerFooterBonus parentNames parentClassStr
  let altVal := attrStrJoined img.alt
  let imgAttrs := attrStrJoined img.cls ++ " " ++ attrStrJoined img.id ++ " " ++
    altVal ++ " " ++ src
  let h3 := keywordBonus imgAttrs
  let h4 := stemBonus stem src
  let h5 := altBonus altVal
  let h6 := negativePenalty imgAttrs parentClassStr
  (h1.1 + h2.1 + h3.1 + h4.1 + h5.1 + h6.1,
   h1.2 ++ h2.2 ++ h3.2 ++ h4.2 ++ h5.2 ++ h6.2)

/-- Embeds the img loop body: images with a missing, non-string or empty
src are skipped; otherwise the image's score and comma-joined reason
string are upserted for its src. -/
def processImg (base stem : String) (cands : Cands) (img : Img) : Cands :=
  match img.src with
  | some (.str s) =>
    if s = "" then cands
    else
      let sr := imgScoreReasons base stem img s
      update_candidate base cands (some s) sr.1 (String.intercalate ", " sr.2)
  | _ => cands

/-- The parsed HTML document, holding the query results `analyze_html`
reads, each in document order. -/
structure Doc where
  scripts : List (Option JVal)
  iconLinks : List LinkTag
  ogImage : Option MetaTag
  imgs : List Img

/-- Embeds `analyze_html`: JSON-LD blocks, then icon links, then the
OpenGraph image, then the img loop, all feeding one candidate dictionary. -/
def analyze_html (doc : Doc) (base_url : String) : Cands :=
  let stem := extract_domain_stem base_url
  let c1 := doc.scripts.foldl (processScript base_url) []
  let c2 := doc.iconLinks.foldl (processIcon base_url) c1
  let c3 := processOg base_url c2 doc.ogImage
  doc.imgs.foldl (fun c img => processImg base_url stem c img) c3

/-- Stable insertion (descending by key) used to model Python's stable
`sorted(..., reverse=True)`: an element is placed before the first element
with a strictly smaller key, i.e. after every earlier element whose key is
greater or equal. -/
def insertDescBy {α β : Type} [LinearOrder β] (key : α → β) (x : α) :
    List α → List α
  | [] => [x]
  | y :: ys => if key y < key x then x :: y :: ys else y :: insertDescBy key x ys

/-- Stable descending sort by key; extensionally equal to any stable sort
with the same key, hence to Python's `sorted(..., key=…, reverse=True)`
(and to `sorted` with a negated key). -/
def sortDescBy {α β : Type} [LinearOrder β] (key : α → β) (l : List α) : List α :=
  l.foldl (fun acc x => insertDescBy key x acc) []

/-- Code-point comparison of characters, as Python compares strings. -/
def charLtB (a b : Char) : Bool := decide (a.toNat < b.toNat)

/-- Lexicographic comparison of character lists by code point. -/
def charListLtB : List Char → List Char → Bool
  | [], [] => false
  | [], _ :: _ => true
  | _ :: _, [] => false
  | a :: as, b :: bs =>
    if charLtB a b then true else if charLtB b a then false else charListLtB as bs

/-- Lexicographic string comparison by code point, the order Python's
`sorted` uses on strings. -/
def strLtB (a b : String) : Bool := charListLtB a.toList b.toList

/-- The corresponding non-strict comparison. -/
def strLeB (a b : String) : Bool := !strLtB b a

/-- Stable insertion (ascending, lexicographic) used to model Python's
`sorted` on strings. -/
def insertAsc (x : String) : List String → List String
  | [] => [x]
  | y :: ys => if strLtB x y then x :: y :: ys else y :: insertAsc x ys

/-- Ascending lexicographic sort, modelling Python's `sorted` on strings. -/
def sortAsc (l : List String) : List String :=
  l.foldl (fun acc x => insertAsc x acc) []

/-- The ranked candidate list of `main`: a stable sort of the candidate
dictionary items by descending score. -/
def rankedCands (cands : Cands) : Cands :=
  sortDescBy (fun kv => kv.2.score) cands

/-- One output row of `main`'s JSON document. -/
structure ResultRow where
  rank : Nat
  score : Int
  url : String
  signals : List String
deriving DecidableEq

/-- The serialized output of `main`, parametrized by the order `lin` in
which `list(...)` enumerates each candidate's `reasons` set: CPython does
not fix that order across processes, so any function returning a
permutation of the set's contents is a possible run. -/
def resultsWith (lin : List String → List String) (cands : Cands) : List ResultRow :=
  (rankedCands cands).enum.map fun ic =>
    ⟨ic.1 + 1, ic.2.2.score, ic.2.1, lin ic.2.2.reasons⟩

/-- The rank/score/url part of a result row, i.e. everything except the
serialized signal list. -/
def rowKey (r : ResultRow) : Nat × Int × String :=
  (r.rank, r.score, r.url)

/-- Embeds the base-URL preprocessing of `main`: strip, then prepend
`https://` when the argument has no scheme. -/
def prepBase (u : String) : String :=
  let b := strTrim u
  if (schemeSplit b).isSome then b else "https://" ++ b

/-- The Hamming-distance threshold of `4-cluster-logos.py`. -/
def HASH_THRESHOLD : Nat := 8

/-- A perceptual hash: the flattened bit array of `imagehash.phash`. -/
abbrev ImageHash := List Bool

/-- Embeds `ImageHash.__sub__` of the `imagehash` library: the number of
positions at which the two flattened bit arrays differ. -/
def hashDist (a b : ImageHash) : Nat :=
  (a.zipWith xor b).count true

/-- Embeds `find_cluster` with a fuel parameter standing for the Python
recursion: follow parent links to the root, then point every node on the
path directly at the root (path compression).  When fuel runs out the
current parent is returned; the embedded `main` always passes enough
fuel. -/
def find_cluster : Nat → (String → String) → String → ((String → String) × String)
  | 0, parent, x => (parent, parent x)
  | fuel + 1, parent, x =>
    if parent x = x then (parent, x)
    else
      let res := find_cluster fuel parent (parent x)
      (Function.update res.1 x res.2, res.2)

/-- Embeds `union_clusters`: find both roots (threading the
path-compressed parent map), then link by rank, incrementing the rank on
ties. -/
def union_clusters (fuel : Nat) (parent : String → String) (rank : String → Nat)
    (x y : String) : (String → String) × (String → Nat) :=
  let fx := find_cluster fuel parent x
  let fy := find_cluster fuel fx.1 y
  let p := fy.1
  let root_x := fx.2
  let root_y := fy.2
  if root_x = root_y then (p, rank)
  else if rank root_x < rank root_y then (Function.update p root_x root_y, rank)
  else if rank root_y < rank root_x then (Function.update p root_y root_x, rank)
  else (Function.update p root_y root_x, Function.update rank root_x (rank root_x + 1))

/-- The union-find state threaded through the pair scan. -/
abbrev UFState := (String → String) × (String → Nat)

/-- The inner loop of the pair scan: for a fixed `d1`, union `d1` with
every later domain at Hamming distance at most the threshold. -/
def scanInner (fuel : Nat) (h : String → ImageHash) (d1 : String) :
    List String → UFState → UFState
  | [], st => st
  | d2 :: rest, st =>
    let st2 :=
      if hashDist (h d1) (h d2) ≤ HASH_THRESHOLD then
        union_clusters fuel st.1 st.2 d1 d2
      else st
    scanInner fuel h d1 rest st2

/-- The outer loop of the pair scan over all ordered pairs `(d1, d2)` with
`d1` before `d2` in the domain list. -/
def scanPairs (fuel : Nat) (h : String → ImageHash) :
    List String → UFState → UFState
  | [], st => st
  | d1 :: rest, st => scanPairs fuel h rest (scanInner fuel h d1 rest st)

/-- Append a member to the group of its root in the insertion-ordered
cluster dictionary, creating the group on first appearance of the root
(`defaultdict(list)` semantics). -/
def addMember : List (String × List String) → String → String →
    List (String × List String)
  | [], root, d => [(root, [d])]
  | kv :: rest, root, d =>
    if kv.1 = root then (kv.1, kv.2 ++ [d]) :: rest
    else kv :: addMember rest root d

/-- The grouping pass of `main`: find each domain's root (threading the
path-compressed parent map) and append the domain to that root's group. -/
def groupDomains (fuel : Nat) :
    List String → (String → String) → List (String × List String) →
    ((String → String) × List (String × List String))
  | [], p, cl => (p, cl)
  | d :: rest, p, cl =>
    let fc := find_cluster fuel p d
    groupDomains fuel rest fc.1 (addMember cl fc.2 d)

/-- The union-find state after the full pair scan of `main`, starting
from the identity parent map and all-zero ranks, with fuel
`domains.length`. -/
def clusterState (h : String → ImageHash) (domains : List String) : UFState :=
  scanPairs domains.length h domains (fun d => d, fun _ => 0)

/-- The cluster dictionary of `main`: groups keyed by root, keys in order
of first appearance, members in domain order. -/
def clustersOf (h : String → ImageHash) (domains : List String) :
    List (String × List String) :=
  (groupDomains domains.length domains (clusterState h domains).1 []).2

/-- The clusters with two or more members, in dictionary order. -/
def multiClusters (h : String → ImageHash) (domains : List String) :
    List (String × List String) :=
  (clustersOf h domains).filter fun kv => 1 < kv.2.length

/-- The roots of single-member clusters, in dictionary order. -/
def singletonsOf (h : String → ImageHash) (domains : List String) : List String :=
  ((clustersOf h domains).filter fun kv => kv.2.length = 1).map (·.1)

/-- All groups the report emits: every multi-member cluster's member
list, followed by each singleton on its own.  These are the "output
clusters" of the program. -/
def outputGroups (h : String → ImageHash) (domains : List String) :
    List (List String) :=
  (multiClusters h domains).map (·.2) ++ (singletonsOf h domains).map ([·])

/-- The report body as data: for each emitted multi-member cluster its
member count and lexicographically sorted member list, in emission order
(`sorted(multi_clusters.items(), key=lambda x: -len(x[1]))`, a stable
sort by descending member count only), followed by the lexicographically
sorted singleton list. -/
structure ClusterReport where
  multis : List (Nat × List String)
  singles : List String
deriving DecidableEq

/-- Builds the report of `main` from the cluster dictionary. -/
def reportOf (h : String → ImageHash) (domains : List String) : ClusterReport :=
  let mc := sortDescBy (fun kv => kv.2.length) (multiClusters h domains)
  ⟨mc.map fun kv => (kv.2.length, sortAsc kv.2), sortAsc (singletonsOf h domains)⟩

/-- Repeated upserts of the same raw URL, as happens when several
heuristic detections discover one candidate: each detection carries a
score and a reason label. -/
def foldUpdates (base : String) (url : Option String)
    (ds : List (Int × String)) : Cands :=
  ds.foldl (fun c d => update_candidate base c url d.1 d.2) []

/-- Every candidate in the dictionary has a non-negative score. -/
def NonnegCands (c : Cands) : Prop := ∀ kv ∈ c, 0 ≤ kv.2.score

/-- A fixed point of the parent map, i.e. a root. -/
def IsFix (p : String → String) (x : String) : Prop := p x = x

/-- `r` is reachable from `x` along parent links. -/
def Reaches (p : String → String) (x r : String) : Prop := ∃ k, p^[k] x = r

/-- `r` is the root of `x`: reachable and a fixed point. -/
def RootedAt (p : String → String) (x r : String) : Prop :=
  Reaches p x r ∧ p r = r

/-- The invariant the union-find parent map keeps throughout `main`:
links stay inside the domain set `S` and following parents never cycles
except at fixed points. -/
structure UFInv (S : Finset String) (p : String → String) : Prop where
  support : ∀ x, p x = x ∨ (x ∈ S ∧ p x ∈ S)
  acyclic : ∀ x k, p^[k + 1] x = x → p x = x

/-- The canonical root map: iterate the parent map `n` times.  Under
`UFInv S p` with `n = S.card` this reaches the root of every node. -/
def rootN (p : String → String) (n : Nat) (x : String) : String := p^[n] x

/-- The relation "the pair is one of the unioned edges": `a` appears
before `b` in the scanned list and their hashes are within the
threshold. -/
def edgeIn (E : List (String × String)) (a b : String) : Prop := (a, b) ∈ E

/-- The ordered pairs the double loop of `main` visits, in visit order. -/
def pairsOf : List String → List (String × String)
  | [] => []
  | d :: rest => (rest.map fun d2 => (d, d2)) ++ pairsOf rest

/-- The pairs that are actually unioned: visited pairs within the
threshold. -/
def closeEdges (h : String → ImageHash) (l : List String) :
    List (String × String) :=
  (pairsOf l).filter fun e => hashDist (h e.1) (h e.2) ≤ HASH_THRESHOLD

/-- Concrete input: the spec's scenario page, an anchor to `/` wrapping
`<img src="/logo.png" alt="Acme logo">` (ancestors: the anchor, then the
BeautifulSoup document node). -/
def acmeDoc : Doc :=
  ⟨[], [], none,
   [⟨some (.str "/logo.png"), some (.str "Acme logo"), none, none,
     [⟨"a", none, none, some (.str "/")⟩, ⟨"[document]", none, none, none⟩]⟩]⟩

/-- Concrete input: a page whose only image sits inside a `<footer>`, so
only the footer penalty fires. -/
def footerDoc : Doc :=
  ⟨[], [], none,
   [⟨some (.str "/x.png"), none, none, none,
     [⟨"footer", none, none, none⟩, ⟨"[document]", none, none, none⟩]⟩]⟩

/-- Concrete input: the same image URL detected twice, once inside a
footer (score −30) and once inside a `partner-area` container
(score −50). -/
def partnerDoc : Doc :=
  ⟨[], [], none,
   [⟨some (.str "/x.png"), none, none, none,
     [⟨"footer", none, none, none⟩, ⟨"[document]", none, none, none⟩]⟩,
    ⟨some (.str "/x.png"), none, none, none,
     [⟨"div", some (.str "partner-area"), none, none⟩,
      ⟨"[document]", none, none, none⟩]⟩]⟩

/-- Concrete input: one URL discovered both as a favicon link and as the
OpenGraph image, giving it a two-element signal set. -/
def iconOgDoc : Doc := ⟨[], [⟨some (.str "/i.png")⟩], some ⟨some (.str "/i.png")⟩, []⟩

/-- Concrete input: an image on which no scoring heuristic fires. -/
def plainImg : Img := ⟨some (.str "/p.bin"), none, none, none, []⟩

/-- Concrete hashes for domains `A`, `B`, `C` with pairwise Hamming
distances `A-B = 5`, `B-C = 6`, `A-C = 9` (so `A-C` exceeds the
threshold while both chain steps are within it). -/
def hashesABC : String → ImageHash := fun d =>
  if d = "A" then List.replicate 16 false
  else if d = "B" then List.replicate 5 true ++ List.replicate 11 false
  else List.replicate 4 true ++ [false] ++ List.replicate 5 true ++
    List.replicate 6 false

/-- Concrete hashes producing two tied two-element clusters:
`a1`, `a2` share one hash and `b1`, `b2` the complementary one. -/
def hashesTwoPairs : String → ImageHash := fun d =>
  if d = "a1" ∨ d = "a2" then List.replicate 16 false
  else List.replicate 16 true


/-- Well-formedness of the grouping dictionary built by the grouping
pass, relative to the class map `g`: keys are distinct, every member's
class is its group's key, and no group is empty. -/
def GroupsWF (g : String → String) (cl : List (String × List String)) : Prop :=
  (cl.map (·.1)).Nodup ∧ (∀ kv ∈ cl, ∀ m ∈ kv.2, g m = kv.1) ∧
    (∀ kv ∈ cl, kv.2 ≠ [])


theorem getCand_eq_some_mem {c : Cands} {u : String} {d : Cand}
    (h : getCand c u = some d) : (u, d) ∈ c := by
  induction c with
  | nil => simp [getCand] at h
  | cons kv rest ih =>
    obtain ⟨k1, k2⟩ := kv
    by_cases hk : k1 = u
    · simp only [getCand] at h
      rw [if_pos hk] at h
      cases h
      subst hk
      exact List.mem_cons_self _ _
    · simp only [getCand] at h
      rw [if_neg hk] at h
      exact List.mem_cons_of_mem _ (ih h)

theorem nonneg_upsert {c : Cands} (nu : String) (s : Int) (r : String)
    (h : NonnegCands c) : NonnegCands (upsert nu s r c) := by
  induction c with
  | nil =>
    intro kv hkv
    simp [upsert] at hkv
    subst hkv
    by_cases hs : s > 0
    · simp [hs]
      omega
    · simp [hs]
  | cons kv rest ih =>
    intro kv2 hkv2
    by_cases hk : kv.1 = nu
    · simp [upsert, hk] at hkv2
      rcases hkv2 with h1 | h2
      · subst h1
        have := h kv (List.mem_cons_self _ _)
        by_cases hs : s > kv.2.score
        · simp [hs]
          omega
        · simp [hs]
          omega
      · exact h _ (List.mem_cons_of_mem _ h2)
    · simp [upsert, hk] at hkv2
      rcases hkv2 with h1 | h2
      · subst h1
        exact h _ (List.mem_cons_self _ _)
      · have hrest : NonnegCands rest := fun z hz => h z (List.mem_cons_of_mem _ hz)
        exact ih hrest _ h2

theorem nonneg_update {c : Cands} (base : String) (url : Option String)
    (s : Int) (r : String) (h : NonnegCands c) :
    NonnegCands (update_candidate base c url s r) := by
  unfold update_candidate
  cases normalize_url base url with
  | none => exact h
  | some nu => exact nonneg_upsert nu s r h

theorem foldl_preserve {α : Type} (P : Cands → Prop) (f : Cands → α → Cands)
    (hf : ∀ c a, P c → P (f c a)) :
    ∀ (l : List α) (c : Cands), P c → P (List.foldl f c l) := by
  intro l
  induction l with
  | nil => intro c hc; simpa using hc
  | cons a rest ih =>
    intro c hc
    simpa using ih (f c a) (hf c a hc)

theorem nonneg_processLogoList (base : String) :
    ∀ (l : List JVal) (c : Cands), NonnegCands c →
      NonnegCands (processLogoList base c l) := by
  intro l
  induction l with
  | nil => intro c hc; simpa [processLogoList] using hc
  | cons v rest ih =>
    intro c hc
    cases v with
    | str s => exact ih _ (nonneg_update base (some s) 60 "Schema.org Organization" hc)
    | null => simp only [processLogoList, pyTruthy]; exact ih c hc
    | bool b =>
      simp only [processLogoList]
      split
      · exact hc
      · exact ih c hc
    | num n =>
      simp only [processLogoList]
      split
      · exact hc
      · exact ih c hc
    | arr items =>
      simp only [processLogoList]
      split
      · exact hc
      · exact ih c hc
    | obj fields =>
      simp only [processLogoList]
      split
      · exact hc
      · exact ih c hc

theorem nonneg_processScript (base : String) (c : Cands) (sc : Option JVal)
    (h : NonnegCands c) : NonnegCands (processScript base c sc) := by
  cases sc with
  | none => exact h
  | some j => exact nonneg_processLogoList base (find_logo j) c h

theorem nonneg_processIcon (base : String) (c : Cands) (lt2 : LinkTag)
    (h : NonnegCands c) : NonnegCands (processIcon base c lt2) := by
  cases hh : get_str_attr lt2.href with
  | none => simpa [processIcon, hh] using h
  | some hr =>
    by_cases he : hr = ""
    · simpa [processIcon, hh, he] using h
    · simpa [processIcon, hh, he] using
        nonneg_update base (some hr) 10 "Favicon/Touch Icon" h

theorem nonneg_processOg (base : String) (c : Cands) (og : Option MetaTag)
    (h : NonnegCands c) : NonnegCands (processOg base c og) := by
  cases og with
  | none => simpa [processOg] using h
  | some m =>
    cases hct : get_str_attr m.content with
    | none => simpa [processOg, hct] using h
    | some ct =>
      by_cases he : ct = ""
      · simpa [processOg, hct, he] using h
      · simpa [processOg, hct, he] using
          nonneg_update base (some ct) 5 "OpenGraph Image" h

theorem nonneg_processImg (base stem : String) (c : Cands) (img : Img)
    (h : NonnegCands c) : NonnegCands (processImg base stem c img) := by
  cases hs : img.src with
  | none => simpa [processImg, hs] using h
  | some v =>
    cases v with
    | str s =>
      by_cases he : s = ""
      · simpa [processImg, hs, he] using h
      · simpa [processImg, hs, he] using nonneg_update base (some s) _ _ h
    | list l => simpa [processImg, hs] using h

theorem nonneg_analyze (doc : Doc) (base : String) :
    NonnegCands (analyze_html doc base) := by
  unfold analyze_html
  apply foldl_preserve _ _ (fun c img hc => nonneg_processImg _ _ c img hc)
  apply nonneg_processOg
  apply foldl_preserve _ _ (fun c lt2 hc => nonneg_processIcon _ c lt2 hc)
  apply foldl_preserve _ _ (fun c sc hc => nonneg_processScript _ c sc hc)
  intro kv hkv
  simp at hkv

/-- C3 counterexample: on the spec's own example — a page whose only
image is detected solely by the footer penalty of −30 — the emitted
candidate's final score is 0, not negative: `update_candidate` creates
entries at score 0 and only ever raises the stored score. -/
theorem C3_counterexample :
    getCand (analyze_html footerDoc "https://zq.com") "https://zq.com/x.png" =
      some ⟨0, ["In Footer"]⟩ ∧ ¬ (0 : Int) < 0 := by
  constructor
  · decide
  · decide

/-- C3 (amended): no candidate in the scorer's output ever has a
negative score; the per-image heuristic total may be negative, but the
stored score of every candidate is always at least 0. -/
theorem C3_scores_nonneg (doc : Doc) (base u : String) (c : Cand)
    (h : getCand (analyze_html doc base) u = some c) : 0 ≤ c.score :=
  nonneg_analyze doc base _ (getCand_eq_some_mem h)

/-- Witness for C3: the footer page's candidate evaluates to score 0 and
the amended theorem applies to it. -/
theorem C3_witness :
    getCand (analyze_html footerDoc "https://zq.com") "https://zq.com/x.png" =
      some ⟨0, ["In Footer"]⟩ ∧ (0 : Int) ≤ (Cand.mk 0 ["In Footer"]).score :=
  ⟨by decide, C3_scores_nonneg footerDoc "https://zq.com" "https://zq.com/x.png"
    ⟨0, ["In Footer"]⟩ (by decide)⟩

theorem mem_addReason (rs : List String) (r r2 : String) :
    r ∈ addReason rs r2 ↔ r ∈ rs ∨ r = r2 := by
  unfold addReason
  by_cases h : r2 ∈ rs
  · simp only [if_pos h]
    constructor
    · exact fun hr => Or.inl hr
    · rintro (hr | rfl)
      · exact hr
      · exact h
  · simp [if_neg h]

theorem getCand_upsert_self_of_none {c : Cands} {nu : String} (s : Int)
    (r : String) (h : getCand c nu = none) :
    getCand (upsert nu s r c) nu = some ⟨if s > 0 then s else 0, [r]⟩ := by
  induction c with
  | nil => simp [upsert, getCand]
  | cons kv rest ih =>
    by_cases hk : kv.1 = nu
    · simp only [getCand] at h
      rw [if_pos hk] at h
      cases h
    · simp only [getCand] at h
      rw [if_neg hk] at h
      simp only [upsert]
      rw [if_neg hk]
      simp only [getCand]
      rw [if_neg hk]
      exact ih h

theorem getCand_upsert_self_of_some {c : Cands} {nu : String} {d : Cand}
    (s : Int) (r : String) (h : getCand c nu = some d) :
    getCand (upsert nu s r c) nu =
      some ⟨if s > d.score then s else d.score, addReason d.reasons r⟩ := by
  induction c with
  | nil => simp [getCand] at h
  | cons kv rest ih =>
    by_cases hk : kv.1 = nu
    · simp only [getCand] at h
      rw [if_pos hk] at h
      cases h
      simp only [upsert]
      rw [if_pos hk]
      simp only [getCand]
      rw [if_pos hk]
    · simp only [getCand] at h
      rw [if_neg hk] at h
      simp only [upsert]
      rw [if_neg hk]
      simp only [getCand]
      rw [if_neg hk]
      exact ih h

theorem if_gt_eq_max (a b : Int) : (if a > b then a else b) = max b a := by
  rcases le_or_lt a b with h | h
  · rw [if_neg (by omega), max_eq_left h]
  · rw [if_pos h, max_eq_right (le_of_lt h)]

theorem foldUpsert_spec (u : String) :
    ∀ (ds : List (Int × String)) (c : Cands) (d : Cand),
      getCand c u = some d →
      ∃ d2, getCand (ds.foldl (fun c2 p => upsert u p.1 p.2 c2) c) u = some d2 ∧
        d2.score = ds.foldl (fun m p => max m p.1) d.score ∧
        (∀ r, r ∈ d2.reasons ↔ r ∈ d.reasons ∨ r ∈ ds.map (·.2)) := by
  intro ds
  induction ds with
  | nil =>
    intro c d h
    exact ⟨d, by simpa using h, rfl, by simp⟩
  | cons p rest ih =>
    intro c d h
    have hstep := getCand_upsert_self_of_some p.1 p.2 h
    obtain ⟨d2, hd2, hscore, hreas⟩ :=
      ih (upsert u p.1 p.2 c) ⟨if p.1 > d.score then p.1 else d.score,
        addReason d.reasons p.2⟩ hstep
    refine ⟨d2, by simpa using hd2, ?_, ?_⟩
    · rw [hscore]
      simp only [List.foldl_cons]
      rw [if_gt_eq_max]
    · intro r
      rw [hreas r]
      simp only [List.map_cons, List.mem_cons, mem_addReason]
      tauto

/-- C2 counterexample: when one URL is detected twice with only negative
scores (−30 from the footer penalty and −50 from the negative-keyword
penalty), its final score is 0 — not the maximum (−30) of the
contributing detections' scores. -/
theorem C2_counterexample :
    getCand (analyze_html partnerDoc "https://zq.com") "https://zq.com/x.png" =
      some ⟨0, ["In Footer", "Negative Keyword (partner/client)"]⟩ ∧
    (0 : Int) ≠ max (-30) (-50) := by
  constructor
  · decide
  · decide

/-- C2 (amended): when the same normalized URL is upserted by multiple
heuristic detections, its final score is the maximum of 0 and the
contributing detections' scores (equal to the plain maximum whenever any
contribution is non-negative, as with scores 10 and 20 giving 20), and
its signal set contains exactly the triggering reason labels. -/
theorem C2_merge_max_and_signals (base : String) (url : Option String)
    (u : String) (s0 : Int) (r0 : String) (ds : List (Int × String))
    (h : normalize_url base url = some u) :
    ∃ c, getCand (foldUpdates base url ((s0, r0) :: ds)) u = some c ∧
      c.score = (((s0, r0) :: ds).map (·.1)).foldl max 0 ∧
      (∀ r, r ∈ c.reasons ↔ r ∈ ((s0, r0) :: ds).map (·.2)) := by
  have hrw : foldUpdates base url ((s0, r0) :: ds) =
      ds.foldl (fun c2 p => upsert u p.1 p.2 c2) (upsert u s0 r0 []) := by
    simp only [foldUpdates, update_candidate, h, List.foldl_cons]
  have h0 : getCand (upsert u s0 r0 []) u =
      some ⟨if s0 > 0 then s0 else 0, [r0]⟩ :=
    getCand_upsert_self_of_none s0 r0 rfl
  obtain ⟨c, hc, hscore, hreas⟩ := foldUpsert_spec u ds _ _ h0
  refine ⟨c, by rw [hrw]; exact hc, ?_, ?_⟩
  · rw [hscore]
    simp only [List.map_cons, List.foldl_cons, List.foldl_map]
    rw [if_gt_eq_max]
  · intro r
    rw [hreas r]
    simp

/-- Witness for C2: a URL discovered with scores 10 and 20 ends with
score 20 and a signal set holding both labels. -/
theorem C2_witness :
    normalize_url "https://e.com" (some "/x.png") = some "https://e.com/x.png" ∧
    ∃ c, getCand (foldUpdates "https://e.com" (some "/x.png")
          [(10, "lab-a"), (20, "lab-b")]) "https://e.com/x.png" = some c ∧
      c.score = ([((10 : Int), "lab-a"), (20, "lab-b")].map (·.1)).foldl max 0 ∧
      (∀ r, r ∈ c.reasons ↔ r ∈ [((10 : Int), "lab-a"), (20, "lab-b")].map (·.2)) :=
  ⟨by decide, C2_merge_max_and_signals "https://e.com" (some "/x.png")
    "https://e.com/x.png" 10 "lab-a" [(20, "lab-b")] (by decide)⟩

/-- C8: a JSON-LD block whose string is missing or fails to parse
(modelled as `none`) is skipped silently: the full candidate result of
the page is identical with and without the bad block, so every other
block and every other heuristic still contributes exactly as before. -/
theorem C8_bad_block_skipped (base : String) (s1 s2 : List (Option JVal))
    (il : List LinkTag) (og : Option MetaTag) (imgs : List Img) :
    analyze_html ⟨s1 ++ none :: s2, il, og, imgs⟩ base =
      analyze_html ⟨s1 ++ s2, il, og, imgs⟩ base := by
  simp [analyze_html, List.foldl_append, processScript]

/-- C4 counterexample: on the spec's scenario page the candidate
`https://acme.com/logo.png` scores 80, not 100 — the domain-stem bonus
does not fire because `acme` is not a substring of `/logo.png`. -/
theorem C4_counterexample :
    (getCand (analyze_html acmeDoc "https://acme.com")
        "https://acme.com/logo.png").map Cand.score = some 80 ∧
    (80 : Int) ≠ 100 := by
  constructor
  · decide
  · decide

/-- C4 (amended): the scenario page yields exactly one candidate,
`https://acme.com/logo.png`, with score 80 = 50 (home link) + 20
(keyword in the combined attribute string) + 10 (alt contains "logo"),
and a single signal label: the comma-joined reason string of the image
pass. -/
theorem C4_scenario_score80 :
    analyze_html acmeDoc "https://acme.com" =
      [("https://acme.com/logo.png",
        ⟨80, ["Linked to Home, Keyword Match (logo/brand), Alt text contains " ++
          sQuote ++ "logo" ++ sQuote]⟩)] := by
  decide

theorem getCand_upsert_other {c : Cands} {nu u : String} (s : Int) (r : String)
    (h : u ≠ nu) : getCand (upsert nu s r c) u = getCand c u := by
  induction c with
  | nil =>
    simp only [upsert, getCand]
    rw [if_neg (fun he => h he.symm)]
  | cons kv rest ih =>
    by_cases hk : kv.1 = nu
    · simp only [upsert]
      rw [if_pos hk]
      simp only [getCand]
      rw [if_neg (by rw [hk]; exact fun he => h he.symm),
        if_neg (by rw [hk]; exact fun he => h he.symm)]
    · simp only [upsert]
      rw [if_neg hk]
      simp only [getCand]
      by_cases hku : kv.1 = u
      · rw [if_pos hku, if_pos hku]
      · rw [if_neg hku, if_neg hku]
        exact ih

theorem isSome_getCand_upsert_self (nu : String) (s : Int) (r : String)
    (c : Cands) : (getCand (upsert nu s r c) nu).isSome := by
  cases h : getCand c nu with
  | none => rw [getCand_upsert_self_of_none s r h]; rfl
  | some d => rw [getCand_upsert_self_of_some s r h]; rfl

theorem isSome_getCand_upsert (nu u : String) (s : Int) (r : String)
    (c : Cands) (h : (getCand c u).isSome) :
    (getCand (upsert nu s r c) u).isSome := by
  by_cases he : u = nu
  · subst he
    exact isSome_getCand_upsert_self u s r c
  · rw [getCand_upsert_other s r he]
    exact h

theorem isSome_getCand_update (base : String) (url : Option String) (s : Int)
    (r : String) (c : Cands) (u : String) (h : (getCand c u).isSome) :
    (getCand (update_candidate base c url s r) u).isSome := by
  unfold update_candidate
  cases normalize_url base url with
  | none => exact h
  | some nu => exact isSome_getCand_upsert nu u s r c h

theorem isSome_getCand_processImg (base stem : String) (c : Cands)
    (img : Img) (u : String) (h : (getCand c u).isSome) :
    (getCand (processImg base stem c img) u).isSome := by
  cases hs : img.src with
  | none => simpa [processImg, hs] using h
  | some v =>
    cases v with
    | str s =>
      by_cases he : s = ""
      · simpa [processImg, hs, he] using h
      · simpa [processImg, hs, he] using
          isSome_getCand_update base (some s) _ _ c u h
    | list l => simpa [processImg, hs] using h

theorem normalize_ne_empty {base s u : String}
    (h : normalize_url base (some s) = some u) : s ≠ "" := by
  intro he
  subst he
  simp [normalize_url] at h

theorem homeBonus_cases (base : String) (ps : List PNode) :
    homeBonus base ps = (0, []) ∨ homeBonus base ps = (50, ["Linked to Home"]) := by
  unfold homeBonus
  cases hh : (ps.filter fun p => p.name == "a").head? with
  | none => exact Or.inl rfl
  | some a =>
    cases ha : a.href with
    | none =>
      left
      simp [ha]
    | some v =>
      cases v with
      | str hs =>
        by_cases hil : is_home_link base (some hs)
        · right
          simp [ha, hil]
        · left
          simp [ha, hil]
      | list l =>
        left
        simp [ha]

theorem headerFooterBonus_cases (pn : List String) (pc : String) :
    headerFooterBonus pn pc = (0, []) ∨ headerFooterBonus pn pc = (10, ["In Header"]) ∨
      headerFooterBonus pn pc = (-30, ["In Footer"]) := by
  unfold headerFooterBonus
  split
  · exact Or.inr (Or.inl rfl)
  · split
    · exact Or.inr (Or.inr rfl)
    · exact Or.inl rfl

theorem keywordBonus_cases (s : String) :
    keywordBonus s = (0, []) ∨ keywordBonus s = (20, ["Keyword Match (logo/brand)"]) := by
  unfold keywordBonus
  split
  · exact Or.inr rfl
  · exact Or.inl rfl

theorem stemBonus_cases (stem src : String) :
    stemBonus stem src = (0, []) ∨
      stemBonus stem src = (20, ["Filename matches domain " ++ sQuote ++ stem ++ sQuote]) := by
  unfold stemBonus
  split
  · exact Or.inr rfl
  · exact Or.inl rfl

theorem altBonus_cases (a : String) :
    altBonus a = (0, []) ∨
      altBonus a = (10, ["Alt text contains " ++ sQuote ++ "logo" ++ sQuote]) := by
  unfold altBonus
  split
  · exact Or.inr rfl
  · exact Or.inl rfl

theorem negativePenalty_cases (ia pc : String) :
    negativePenalty ia pc = (0, []) ∨
      negativePenalty ia pc = (-50, ["Negative Keyword (partner/client)"]) := by
  unfold negativePenalty
  split
  · exact Or.inr rfl
  · exact Or.inl rfl

theorem imgScore_zero_of_no_reasons (base stem : String) (img : Img) (s : String)
    (h : (imgScoreReasons base stem img s).2 = []) :
    (imgScoreReasons base stem img s).1 = 0 := by
  simp only [imgScoreReasons] at h ⊢
  rcases homeBonus_cases base img.parents with h1 | h1 <;> rw [h1] at h ⊢ <;>
    rcases headerFooterBonus_cases (img.parents.map (·.name))
      (String.intercalate " " (img.parents.map pnodeTokens).flatten) with h2 | h2 | h2 <;>
    rw [h2] at h ⊢ <;>
    rcases keywordBonus_cases (attrStrJoined img.cls ++ " " ++ attrStrJoined img.id ++
      " " ++ attrStrJoined img.alt ++ " " ++ s) with h3 | h3 <;> rw [h3] at h ⊢ <;>
    rcases stemBonus_cases stem s with h4 | h4 <;> rw [h4] at h ⊢ <;>
    rcases altBonus_cases (attrStrJoined img.alt) with h5 | h5 <;> rw [h5] at h ⊢ <;>
    rcases negativePenalty_cases (attrStrJoined img.cls ++ " " ++ attrStrJoined img.id ++
      " " ++ attrStrJoined img.alt ++ " " ++ s)
      (String.intercalate " " (img.parents.map pnodeTokens).flatten) with h6 | h6 <;>
    rw [h6] at h ⊢ <;> simp_all

/-- C9: every `img` whose string src normalizes to an http/https URL
produces a candidate in the scorer's output (first conjunct), and when no
scoring heuristic fires on such an image on an otherwise empty page, the
candidate appears with score 0 and a single signal label equal to the
comma-joined — here empty — reason string, rather than being omitted
(second conjunct). -/
theorem C9_all_imgs_kept :
    (∀ (doc : Doc) (base : String) (img : Img) (s u : String),
       img ∈ doc.imgs → img.src = some (.str s) →
       normalize_url base (some s) = some u →
       (getCand (analyze_html doc base) u).isSome) ∧
    (∀ (base : String) (img : Img) (s u : String),
       img.src = some (.str s) → normalize_url base (some s) = some u →
       (imgScoreReasons base (extract_domain_stem base) img s).2 = [] →
       analyze_html ⟨[], [], none, [img]⟩ base = [(u, ⟨0, [""]⟩)]) := by
  constructor
  · intro doc base img s u hmem hsrc hn
    obtain ⟨l1, l2, hsplit⟩ := List.append_of_mem hmem
    have hsne : s ≠ "" := normalize_ne_empty hn
    unfold analyze_html
    rw [hsplit, List.foldl_append, List.foldl_cons]
    apply foldl_preserve (fun c => (getCand c u).isSome)
      (fun c img2 => processImg base (extract_domain_stem base) c img2)
      (fun c img2 hc => isSome_getCand_processImg _ _ c img2 u hc)
    simp only [processImg, hsrc, hsne, if_neg hsne]
    unfold update_candidate
    rw [hn]
    exact isSome_getCand_upsert_self u _ _ _
  · intro base img s u hsrc hn hr
    have hsne : s ≠ "" := normalize_ne_empty hn
    have hz := imgScore_zero_of_no_reasons base (extract_domain_stem base) img s hr
    unfold analyze_html
    simp only [List.foldl_nil, List.foldl_cons, processOg]
    simp only [processImg, hsrc, if_neg hsne]
    unfold update_candidate
    rw [hn, hr, hz]
    rfl

/-- Witness for C9: a bare image with src `/p.bin` on `https://zq.com`
fires no heuristic yet yields the candidate `https://zq.com/p.bin` with
score 0 and the single empty signal label. -/
theorem C9_witness :
    (plainImg ∈ (Doc.mk [] [] none [plainImg]).imgs ∧
     plainImg.src = some (.str "/p.bin") ∧
     normalize_url "https://zq.com" (some "/p.bin") = some "https://zq.com/p.bin" ∧
     (imgScoreReasons "https://zq.com" (extract_domain_stem "https://zq.com")
        plainImg "/p.bin").2 = []) ∧
    (getCand (analyze_html ⟨[], [], none, [plainImg]⟩ "https://zq.com")
        "https://zq.com/p.bin").isSome ∧
    analyze_html ⟨[], [], none, [plainImg]⟩ "https://zq.com" =
      [("https://zq.com/p.bin", ⟨0, [""]⟩)] :=
  ⟨⟨by decide, by decide, by decide, by decide⟩,
   C9_all_imgs_kept.1 ⟨[], [], none, [plainImg]⟩ "https://zq.com" plainImg
     "/p.bin" "https://zq.com/p.bin" (by decide) (by decide) (by decide),
   C9_all_imgs_kept.2 "https://zq.com" plainImg "/p.bin" "https://zq.com/p.bin"
     (by decide) (by decide) (by decide)⟩

theorem insertDescBy_perm {α β : Type} [LinearOrder β] (key : α → β) (x : α)
    (l : List α) : (insertDescBy key x l).Perm (x :: l) := by
  induction l with
  | nil => simp [insertDescBy]
  | cons y ys ih =>
    simp only [insertDescBy]
    split
    · exact List.Perm.refl _
    · exact ((ih.cons y).trans (List.Perm.swap x y ys))

theorem sortDescBy_foldl_perm {α β : Type} [LinearOrder β] (key : α → β) :
    ∀ (l acc : List α),
      (l.foldl (fun a x => insertDescBy key x a) acc).Perm (acc ++ l) := by
  intro l
  induction l with
  | nil => simp
  | cons x xs ih =>
    intro acc
    simp only [List.foldl_cons]
    refine (ih (insertDescBy key x acc)).trans ?_
    have h1 : (insertDescBy key x acc ++ xs).Perm ((x :: acc) ++ xs) :=
      (insertDescBy_perm key x acc).append_right xs
    refine h1.trans ?_
    simpa using List.perm_middle.symm

theorem sortDescBy_perm {α β : Type} [LinearOrder β] (key : α → β) (l : List α) :
    (sortDescBy key l).Perm l := by
  simpa using sortDescBy_foldl_perm key l []

theorem insertDescBy_pairwise {α β : Type} [LinearOrder β] (key : α → β) (x : α)
    {l : List α} (h : l.Pairwise fun a b => key b ≤ key a) :
    (insertDescBy key x l).Pairwise fun a b => key b ≤ key a := by
  induction l with
  | nil => simp [insertDescBy]
  | cons y ys ih =>
    rcases List.pairwise_cons.mp h with ⟨hy, hys⟩
    simp only [insertDescBy]
    split
    · rename_i hlt
      refine List.pairwise_cons.mpr ⟨?_, h⟩
      intro z hz
      rcases List.mem_cons.mp hz with rfl | hz2
      · exact le_of_lt hlt
      · exact le_trans (hy z hz2) (le_of_lt hlt)
    · rename_i hge
      refine List.pairwise_cons.mpr ⟨?_, ih hys⟩
      intro z hz
      have hz3 := (insertDescBy_perm key x ys).mem_iff.mp hz
      rcases List.mem_cons.mp hz3 with rfl | hz4
      · exact le_of_not_lt hge
      · exact hy z hz4

theorem sortDescBy_foldl_pairwise {α β : Type} [LinearOrder β] (key : α → β) :
    ∀ (l acc : List α), (acc.Pairwise fun a b => key b ≤ key a) →
      (l.foldl (fun a x => insertDescBy key x a) acc).Pairwise
        fun a b => key b ≤ key a := by
  intro l
  induction l with
  | nil => intro acc h; simpa using h
  | cons x xs ih =>
    intro acc h
    simpa using ih (insertDescBy key x acc) (insertDescBy_pairwise key x h)

theorem sortDescBy_pairwise {α β : Type} [LinearOrder β] (key : α → β)
    (l : List α) :
    (sortDescBy key l).Pairwise fun a b => key b ≤ key a :=
  sortDescBy_foldl_pairwise key l [] (by simp)

theorem insertDescBy_filter_eq {α β : Type} [LinearOrder β] (key : α → β)
    (k : β) (x : α) :
    ∀ {l : List α}, (l.Pairwise fun a b => key b ≤ key a) →
      (insertDescBy key x l).filter (fun a => decide (key a = k)) =
        if key x = k then
          l.filter (fun a => decide (key a = k)) ++ [x]
        else l.filter (fun a => decide (key a = k)) := by
  intro l
  induction l with
  | nil =>
    intro _
    by_cases hk : key x = k
    · simp [insertDescBy, hk]
    · simp [insertDescBy, hk]
  | cons y ys ih =>
    intro h
    rcases List.pairwise_cons.mp h with ⟨hy, hys⟩
    simp only [insertDescBy]
    split
    · rename_i hlt
      by_cases hk : key x = k
      · have hnil : (y :: ys).filter (fun a => decide (key a = k)) = [] := by
          apply List.filter_eq_nil_iff.mpr
          intro a ha
          have hle : key a ≤ key y := by
            rcases List.mem_cons.mp ha with rfl | ha2
            · exact le_refl _
            · exact hy a ha2
          have : key a < k := by
            rw [← hk]
            exact lt_of_le_of_lt hle hlt
          simp only [decide_eq_true_eq]
          exact fun he => absurd he (ne_of_lt this)
        rw [if_pos hk]
        rw [List.filter_cons_of_pos (by simpa using hk), hnil]
        rfl
      · rw [if_neg hk]
        rw [List.filter_cons_of_neg (by simpa using hk)]
    · rename_i hge
      by_cases hyk : key y = k
      · rw [List.filter_cons_of_pos (by simpa using hyk), ih hys]
        by_cases hk : key x = k
        · rw [if_pos hk, if_pos hk,
            List.filter_cons_of_pos (by simpa using hyk)]
          rfl
        · rw [if_neg hk, if_neg hk,
            List.filter_cons_of_pos (by simpa using hyk)]
      · rw [List.filter_cons_of_neg (by simpa using hyk), ih hys]
        by_cases hk : key x = k
        · rw [if_pos hk, if_pos hk,
            List.filter_cons_of_neg (by simpa using hyk)]
        · rw [if_neg hk, if_neg hk,
            List.filter_cons_of_neg (by simpa using hyk)]

theorem sortDescBy_foldl_filter_eq {α β : Type} [LinearOrder β] (key : α → β)
    (k : β) :
    ∀ (l acc : List α), (acc.Pairwise fun a b => key b ≤ key a) →
      (l.foldl (fun a x => insertDescBy key x a) acc).filter
          (fun a => decide (key a = k)) =
        acc.filter (fun a => decide (key a = k)) ++
          l.filter (fun a => decide (key a = k)) := by
  intro l
  induction l with
  | nil => intro acc h; simp
  | cons x xs ih =>
    intro acc h
    simp only [List.foldl_cons]
    rw [ih (insertDescBy key x acc) (insertDescBy_pairwise key x h)]
    rw [insertDescBy_filter_eq key k x h]
    by_cases hk : key x = k
    · rw [if_pos hk, List.filter_cons_of_pos (by simpa using hk)]
      simp
    · rw [if_neg hk, List.filter_cons_of_neg (by simpa using hk)]

theorem sortDescBy_filter_eq {α β : Type} [LinearOrder β] (key : α → β)
    (k : β) (l : List α) :
    (sortDescBy key l).filter (fun a => decide (key a = k)) =
      l.filter (fun a => decide (key a = k)) := by
  simpa using sortDescBy_foldl_filter_eq key k l [] (by simp)

theorem forall₂_map_same {α β : Type} (f g : α → β) (R : β → β → Prop)
    (l : List α) (h : ∀ x ∈ l, R (f x) (g x)) :
    List.Forall₂ R (l.map f) (l.map g) := by
  induction l with
  | nil => simp
  | cons x xs ih =>
    simp only [List.map_cons]
    exact List.Forall₂.cons (h x (List.mem_cons_self _ _))
      (ih fun z hz => h z (List.mem_cons_of_mem _ hz))

/-- C7 counterexample: the serialized output depends on the enumeration
order of the `reasons` set, which CPython does not fix across runs: on a
page where one URL carries two signal labels, enumerating the set in
reversed insertion order produces a different output than enumerating it
in insertion order, so two runs need not be byte-identical. -/
theorem C7_counterexample :
    resultsWith (fun l => l.reverse) (analyze_html iconOgDoc "https://zq.com") ≠
      resultsWith (fun l => l) (analyze_html iconOgDoc "https://zq.com") := by
  decide

/-- C7 (amended): the scorer is deterministic in everything except the
serialization order of each candidate's signal set: for any two
enumeration orders of the sets, the outputs agree on rank, score and URL
(in the same order) and their signal lists are permutations of each
other; the ranked order itself is sorted by descending score, and ties
keep first-discovery order (the filter at any fixed score equals the
dictionary-order filter). -/
theorem C7_determinism_up_to_signal_order (doc : Doc) (base : String)
    (lin1 lin2 : List String → List String)
    (h1 : ∀ l, (lin1 l).Perm l) (h2 : ∀ l, (lin2 l).Perm l) :
    ((resultsWith lin1 (analyze_html doc base)).map rowKey =
      (resultsWith lin2 (analyze_html doc base)).map rowKey) ∧
    List.Forall₂ (fun a b => a.signals.Perm b.signals)
      (resultsWith lin1 (analyze_html doc base))
      (resultsWith lin2 (analyze_html doc base)) ∧
    ((rankedCands (analyze_html doc base)).Pairwise
      fun a b => b.2.score ≤ a.2.score) ∧
    (∀ sc : Int,
      (rankedCands (analyze_html doc base)).filter
          (fun kv => decide (kv.2.score = sc)) =
        (analyze_html doc base).filter (fun kv => decide (kv.2.score = sc))) := by
  refine ⟨?_, ?_, ?_, ?_⟩
  · unfold resultsWith
    rw [List.map_map, List.map_map]
    rfl
  · unfold resultsWith
    apply forall₂_map_same
    intro x _
    exact (h1 x.2.2.reasons).trans (h2 x.2.2.reasons).symm
  · exact sortDescBy_pairwise _ _
  · intro sc
    exact sortDescBy_filter_eq (fun kv : String × Cand => kv.2.score) sc _

/-- Witness for C7: the amended determinism applied to the favicon and
OpenGraph page with the reversed and the identity enumeration orders. -/
theorem C7_witness :
    ((resultsWith (fun l => l.reverse) (analyze_html iconOgDoc "https://zq.com")).map
        rowKey =
      (resultsWith (fun l => l) (analyze_html iconOgDoc "https://zq.com")).map
        rowKey) ∧
    List.Forall₂ (fun a b => a.signals.Perm b.signals)
      (resultsWith (fun l => l.reverse) (analyze_html iconOgDoc "https://zq.com"))
      (resultsWith (fun l => l) (analyze_html iconOgDoc "https://zq.com")) ∧
    ((rankedCands (analyze_html iconOgDoc "https://zq.com")).Pairwise
      fun a b => b.2.score ≤ a.2.score) ∧
    (∀ sc : Int,
      (rankedCands (analyze_html iconOgDoc "https://zq.com")).filter
          (fun kv => decide (kv.2.score = sc)) =
        (analyze_html iconOgDoc "https://zq.com").filter
          (fun kv => decide (kv.2.score = sc))) :=
  C7_determinism_up_to_signal_order iconOgDoc "https://zq.com"
    (fun l => l.reverse) (fun l => l) (fun l => l.reverse_perm)
    (fun l => List.Perm.refl l)

theorem iterate_fix {p : String → String} {r : String} (h : p r = r) :
    ∀ k, p^[k] r = r := by
  intro k
  induction k with
  | zero => rfl
  | succ n ih => rw [Function.iterate_succ_apply', ih, h]

theorem iterate_absorb {p : String → String} {x : String} {n : Nat}
    (h : p (p^[n] x) = p^[n] x) {m : Nat} (hm : n ≤ m) :
    p^[m] x = p^[n] x := by
  obtain ⟨d, rfl⟩ := Nat.exists_eq_add_of_le hm
  rw [Nat.add_comm, Function.iterate_add_apply]
  exact iterate_fix h d

theorem rootedAt_unique {p : String → String} {x r1 r2 : String}
    (h1 : RootedAt p x r1) (h2 : RootedAt p x r2) : r1 = r2 := by
  obtain ⟨⟨k1, hk1⟩, hf1⟩ := h1
  obtain ⟨⟨k2, hk2⟩, hf2⟩ := h2
  rcases le_total k1 k2 with h | h
  · have : p^[k2] x = r1 := by
      obtain ⟨d, rfl⟩ := Nat.exists_eq_add_of_le h
      rw [Nat.add_comm, Function.iterate_add_apply, hk1]
      exact iterate_fix hf1 d
    rw [← this, hk2]
  · have : p^[k1] x = r2 := by
      obtain ⟨d, rfl⟩ := Nat.exists_eq_add_of_le h
      rw [Nat.add_comm, Function.iterate_add_apply, hk2]
      exact iterate_fix hf2 d
    rw [← hk1, this]

theorem mem_S_of_iterate {S : Finset String} {p : String → String}
    (hinv : UFInv S p) {x : String} (hx : p x ≠ x) :
    ∀ k, p^[k + 1] x ∈ S := by
  intro k
  induction k with
  | zero =>
    rcases hinv.support x with h | ⟨_, h2⟩
    · exact absurd h hx
    · simpa using h2
  | succ n ih =>
    rw [Function.iterate_succ_apply']
    rcases hinv.support (p^[n + 1] x) with h | ⟨_, h2⟩
    · rw [h]; exact ih
    · exact h2

theorem settled_of_inv {S : Finset String} {p : String → String}
    (hinv : UFInv S p) (x : String) :
    p (p^[S.card] x) = p^[S.card] x := by
  by_contra hne
  have hall : ∀ i ≤ S.card, p (p^[i] x) ≠ p^[i] x := by
    intro i hi hfix
    exact hne (by rw [iterate_absorb hfix hi] at *; exact hfix)
  have hx : p x ≠ x := hall 0 (Nat.zero_le _)
  have hmaps : ∀ i ∈ Finset.range (S.card + 1), p^[i + 1] x ∈ S :=
    fun i _ => mem_S_of_iterate hinv hx i
  have hcard : S.card < (Finset.range (S.card + 1)).card := by
    simp
  obtain ⟨i, hi, j, hj, hij, heq⟩ :=
    Finset.exists_ne_map_eq_of_card_lt_of_maps_to hcard hmaps
  simp only [Finset.mem_range] at hi hj
  rcases Nat.lt_or_ge i j with hlt | hge
  · have hcyc : p^[(j - i - 1) + 1] (p^[i + 1] x) = p^[i + 1] x := by
      rw [← Function.iterate_add_apply]
      have he : j - i - 1 + 1 + (i + 1) = j + 1 := by omega
      rw [he, heq]
    exact hall (i + 1) (by omega) (hinv.acyclic _ _ hcyc)
  · rcases Nat.lt_or_ge j i with hlt2 | hge2
    · have hcyc : p^[(i - j - 1) + 1] (p^[j + 1] x) = p^[j + 1] x := by
        rw [← Function.iterate_add_apply]
        have he : i - j - 1 + 1 + (j + 1) = i + 1 := by omega
        rw [he, heq.symm]
      exact hall (j + 1) (by omega) (hinv.acyclic _ _ hcyc)
    · exact hij (Nat.le_antisymm hge2 hge)

theorem rootN_rootedAt {S : Finset String} {p : String → String}
    (hinv : UFInv S p) (x : String) : RootedAt p x (rootN p S.card x) :=
  ⟨⟨S.card, rfl⟩, settled_of_inv hinv x⟩

theorem rootedAt_iff_rootN {S : Finset String} {p : String → String}
    (hinv : UFInv S p) {x r : String} :
    RootedAt p x r ↔ rootN p S.card x = r := by
  constructor
  · intro h
    exact rootedAt_unique (rootN_rootedAt hinv x) h
  · rintro rfl
    exact rootN_rootedAt hinv x

theorem rootN_fix {S : Finset String} {p : String → String}
    (hinv : UFInv S p) (x : String) :
    p (rootN p S.card x) = rootN p S.card x :=
  settled_of_inv hinv x

theorem rootN_idem {S : Finset String} {p : String → String}
    (hinv : UFInv S p) (x : String) :
    rootN p S.card (rootN p S.card x) = rootN p S.card x :=
  iterate_fix (settled_of_inv hinv x) S.card

theorem rootN_apply {S : Finset String} {p : String → String}
    (hinv : UFInv S p) (x : String) :
    rootN p S.card (p x) = rootN p S.card x := by
  unfold rootN
  rw [← Function.iterate_succ_apply, Function.iterate_succ_apply']
  exact settled_of_inv hinv x

theorem rootedAt_mem {S : Finset String} {p : String → String}
    (hinv : UFInv S p) {x r : String} (h : RootedAt p x r) (hx : x ∈ S) :
    r ∈ S := by
  obtain ⟨⟨k, hk⟩, _⟩ := h
  cases k with
  | zero => rw [← hk]; exact hx
  | succ n =>
    by_cases hfx : p x = x
    · rw [iterate_fix hfx] at hk
      rw [← hk]; exact hx
    · rw [← hk]
      exact mem_S_of_iterate hinv hfx n

theorem update_iterate_of_not_hit {p : String → String} {x0 r z : String}
    {k : Nat} (h : ∀ i < k, p^[i] z ≠ x0) :
    (Function.update p x0 r)^[k] z = p^[k] z := by
  induction k with
  | zero => rfl
  | succ n ih =>
    rw [Function.iterate_succ_apply', Function.iterate_succ_apply',
      ih (fun i hi => h i (Nat.lt_succ_of_lt hi)),
      Function.update_noteq (h n (Nat.lt_succ_self n))]

theorem link_acyclic {S : Finset String} {p : String → String} {x0 r : String}
    (hinv : UFInv S p) (hr : p r = r) (hx0r : x0 ≠ r) :
    ∀ z k, (Function.update p x0 r)^[k + 1] z = z →
      Function.update p x0 r z = z := by
  intro z k hcyc
  set p2 := Function.update p x0 r with hp2
  have hr2 : p2 r = r := by
    rw [hp2, Function.update_noteq (fun he => hx0r he.symm), hr]
  by_cases hhit : ∃ i, i ≤ k ∧ p2^[i] z = x0
  · obtain ⟨i, hik, hi⟩ := hhit
    have hstep : p2^[i + 1] z = r := by
      rw [Function.iterate_succ_apply', hi, hp2, Function.update_same]
    have hper : ∀ m, p2^[(k + 1) * m] z = z := by
      intro m
      induction m with
      | zero => rfl
      | succ n ih =>
        rw [Nat.mul_succ, Function.iterate_add_apply, hcyc]
        exact ih
    have hzr : z = r := by
      have h1 : p2^[(k + 1) * (i + 1)] z = z := hper (i + 1)
      have h2 : (k + 1) * (i + 1) = ((k + 1) * (i + 1) - (i + 1)) + (i + 1) := by
        have : i + 1 ≤ (k + 1) * (i + 1) := Nat.le_mul_of_pos_left _ (Nat.succ_pos k)
        omega
      rw [h2, Function.iterate_add_apply, hstep] at h1
      rw [← h1]
      exact (iterate_fix hr2 _).symm ▸ (iterate_fix hr2 _)
    rw [hzr, hr2]
  · push_neg at hhit
    have hagree : ∀ i, i ≤ k + 1 → p2^[i] z = p^[i] z := by
      intro i
      induction i with
      | zero => intro _; rfl
      | succ n ih =>
        intro hik
        rw [Function.iterate_succ_apply', Function.iterate_succ_apply',
          ih (by omega)]
        refine Function.update_noteq ?_ _ _
        rw [← ih (by omega)]
        exact hhit n (by omega)
    have hz0 : z ≠ x0 := by
      have := hhit 0 (Nat.zero_le k)
      simpa using this
    have hpz : p z = z := by
      apply hinv.acyclic z k
      rw [← hagree (k + 1) (le_refl _)]
      exact hcyc
    rw [hp2, Function.update_noteq hz0, hpz]

theorem link_support {S : Finset String} {p : String → String} {x0 r : String}
    (hinv : UFInv S p) (hx0 : x0 ∈ S) (hrS : r ∈ S) :
    ∀ z, Function.update p x0 r z = z ∨
      (z ∈ S ∧ Function.update p x0 r z ∈ S) := by
  intro z
  by_cases hz : z = x0
  · subst hz
    right
    rw [Function.update_same]
    exact ⟨hx0, hrS⟩
  · rw [Function.update_noteq hz]
    exact hinv.support z

theorem link_inv {S : Finset String} {p : String → String} {x0 r : String}
    (hinv : UFInv S p) (hr : p r = r) (hx0r : x0 ≠ r) (hx0 : x0 ∈ S)
    (hrS : r ∈ S) : UFInv S (Function.update p x0 r) :=
  ⟨link_support hinv hx0 hrS, link_acyclic hinv hr hx0r⟩

theorem link_rootedAt {p : String → String} {x0 r rx : String}
    (hr : p r = r) (hx0r : x0 ≠ r) (hx0root : RootedAt p x0 rx)
    (hcase : rx = r ∨ rx = x0) {z s : String} (hz : RootedAt p z s) :
    RootedAt (Function.update p x0 r) z (if s = rx then r else s) := by
  obtain ⟨⟨k, hk⟩, hs⟩ := hz
  have hr2 : Function.update p x0 r r = r := by
    rw [Function.update_noteq (fun he => hx0r he.symm)]
    exact hr
  by_cases hhit : ∃ i, p^[i] z = x0 ∧ i ≤ k
  · have hex : ∃ i, p^[i] z = x0 := ⟨hhit.choose, hhit.choose_spec.1⟩
    classical
    let jm := Nat.find hex
    have hjm : p^[jm] z = x0 := Nat.find_spec hex
    have hmin : ∀ m, m < jm → p^[m] z ≠ x0 := fun m hm => Nat.find_min hex hm
    have hjmk : jm ≤ k := le_trans (Nat.find_le hhit.choose_spec.1)
      hhit.choose_spec.2
    have hsrx : s = rx := by
      have hxs : RootedAt p x0 s := by
        refine ⟨⟨k - jm, ?_⟩, hs⟩
        rw [← hjm, ← Function.iterate_add_apply]
        have he : k - jm + jm = k := by omega
        rw [he, hk]
      exact rootedAt_unique hxs hx0root
    rw [if_pos hsrx]
    refine ⟨⟨jm + 1, ?_⟩, hr2⟩
    rw [Function.iterate_succ_apply', update_iterate_of_not_hit hmin, hjm,
      Function.update_same]
  · push_neg at hhit
    have hnot : ∀ i, i ≤ k → p^[i] z ≠ x0 := by
      intro i hik he
      exact absurd hik (by simpa using hhit i he)
    have hchain : (Function.update p x0 r)^[k] z = s := by
      rw [update_iterate_of_not_hit (fun m hm => hnot m (le_of_lt hm)), hk]
    have hsx0 : s ≠ x0 := by
      rw [← hk]
      exact hnot k (le_refl k)
    have hfix2 : Function.update p x0 r s = s := by
      rw [Function.update_noteq hsx0]
      exact hs
    by_cases hsr : s = rx
    · rcases hcase with hc | hc
      · rw [if_pos hsr]
        have hsr2 : s = r := hsr.trans hc
        rw [hsr2] at hchain
        exact ⟨⟨k, hchain⟩, hr2⟩
      · exact absurd (hsr.trans hc) hsx0
    · rw [if_neg hsr]
      exact ⟨⟨k, hchain⟩, hfix2⟩

theorem rootN_link {S : Finset String} {p : String → String} {x0 r : String}
    (hinv : UFInv S p) (hr : p r = r) (hx0r : x0 ≠ r)
    (hcase : rootN p S.card x0 = r ∨ rootN p S.card x0 = x0)
    (hx0 : x0 ∈ S) (hrS : r ∈ S) (z : String) :
    rootN (Function.update p x0 r) S.card z =
      if rootN p S.card z = rootN p S.card x0 then r else rootN p S.card z := by
  have hinv2 : UFInv S (Function.update p x0 r) := link_inv hinv hr hx0r hx0 hrS
  have h1 := link_rootedAt hr hx0r (rootN_rootedAt hinv x0) hcase
    (rootN_rootedAt hinv z)
  exact (rootedAt_iff_rootN hinv2).mp h1

theorem find_cluster_spec {S : Finset String} :
    ∀ (fuel : Nat) (p : String → String) (x : String), UFInv S p →
      p (p^[fuel] x) = p^[fuel] x →
      (find_cluster fuel p x).2 = rootN p S.card x ∧
      UFInv S (find_cluster fuel p x).1 ∧
      ∀ z, rootN (find_cluster fuel p x).1 S.card z = rootN p S.card z := by
  intro fuel
  induction fuel with
  | zero =>
    intro p x hinv hfx
    simp only [Function.iterate_zero_apply] at hfx
    have hroot : rootN p S.card x = x := iterate_fix hfx S.card
    exact ⟨by simp [find_cluster, hroot, hfx], hinv, fun z => rfl⟩
  | succ fuel ih =>
    intro p x hinv hfx
    by_cases hpx : p x = x
    · have hroot : rootN p S.card x = x := iterate_fix hpx S.card
      refine ⟨?_, ?_, ?_⟩
      · simp only [find_cluster, if_pos hpx]
        exact hroot.symm
      · simp only [find_cluster, if_pos hpx]
        exact hinv
      · intro z
        simp [find_cluster, hpx]
    · have hfx2 : p (p^[fuel] (p x)) = p^[fuel] (p x) := by
        rw [← Function.iterate_succ_apply]
        exact hfx
      obtain ⟨hr2, hinv1, hroots1⟩ := ih p (p x) hinv hfx2
      have hrx : (find_cluster fuel p (p x)).2 = rootN p S.card x := by
        rw [hr2, rootN_apply hinv]
      have hfixr : (find_cluster fuel p (p x)).1 (find_cluster fuel p (p x)).2 =
          (find_cluster fuel p (p x)).2 := by
        have h1 : rootN (find_cluster fuel p (p x)).1 S.card
            (find_cluster fuel p (p x)).2 = (find_cluster fuel p (p x)).2 := by
          rw [hroots1, hrx, rootN_idem hinv]
        have h2 := settled_of_inv hinv1 (find_cluster fuel p (p x)).2
        rw [show ((find_cluster fuel p (p x)).1)^[S.card]
            (find_cluster fuel p (p x)).2 =
          rootN (find_cluster fuel p (p x)).1 S.card
            (find_cluster fuel p (p x)).2 from rfl, h1] at h2
        exact h2
      have hxner : x ≠ (find_cluster fuel p (p x)).2 := by
        rw [hrx]
        intro he
        have hfix := rootN_fix hinv x
        rw [← he] at hfix
        exact hpx hfix
      have hxS : x ∈ S := by
        rcases hinv.support x with h | ⟨h1, _⟩
        · exact absurd h hpx
        · exact h1
      have hrS : (find_cluster fuel p (p x)).2 ∈ S := by
        rw [hrx]
        exact rootedAt_mem hinv (rootN_rootedAt hinv x) hxS
      have hcase : rootN (find_cluster fuel p (p x)).1 S.card x =
          (find_cluster fuel p (p x)).2 ∨
          rootN (find_cluster fuel p (p x)).1 S.card x = x := by
        left
        rw [hroots1, hrx]
      have hinv2 : UFInv S (Function.update (find_cluster fuel p (p x)).1 x
          (find_cluster fuel p (p x)).2) :=
        link_inv hinv1 hfixr hxner hxS hrS
      have hmain : ∀ z,
          rootN (Function.update (find_cluster fuel p (p x)).1 x
            (find_cluster fuel p (p x)).2) S.card z = rootN p S.card z := by
        intro z
        have hlink := rootN_link hinv1 hfixr hxner hcase hxS hrS z
        rw [hlink, hroots1 z, hroots1 x, hrx]
        by_cases hz : rootN p S.card z = rootN p S.card x
        · rw [if_pos hz, hz]
        · rw [if_neg hz]
      refine ⟨?_, ?_, ?_⟩
      · simp only [find_cluster, if_neg hpx]
        exact hrx
      · simp only [find_cluster, if_neg hpx]
        exact hinv2
      · simp only [find_cluster, if_neg hpx]
        exact hmain

theorem settled_fuel {S : Finset String} {p : String → String} {fuel : Nat}
    (hinv : UFInv S p) (hfuel : S.card ≤ fuel) (x : String) :
    p (p^[fuel] x) = p^[fuel] x := by
  rw [iterate_absorb (settled_of_inv hinv x) hfuel]
  exact settled_of_inv hinv x

theorem fix_of_rootN_eq {S : Finset String} {p : String → String}
    (hinv : UFInv S p) {r : String} (h : rootN p S.card r = r) : p r = r := by
  have h2 := settled_of_inv hinv r
  rw [show p^[S.card] r = rootN p S.card r from rfl, h] at h2
  exact h2

theorem classes_link_iff (g : String → String) (ra rb : String)
    (hne : ra ≠ rb) (a b : String) :
    ((if g a = ra then rb else g a) = if g b = ra then rb else g b) ↔
      (g a = g b ∨ (g a = ra ∧ g b = rb) ∨ (g a = rb ∧ g b = ra)) := by
  by_cases h1 : g a = ra <;> by_cases h2 : g b = ra
  · simp only [if_pos h1, if_pos h2]
    constructor
    · intro _
      exact Or.inl (h1.trans h2.symm)
    · intro _
      trivial
  · simp only [if_pos h1, if_neg h2]
    constructor
    · intro h
      exact Or.inr (Or.inl ⟨h1, h.symm⟩)
    · rintro (h | ⟨_, h⟩ | ⟨h3, h4⟩)
      · exact absurd (h ▸ h1) h2
      · exact h.symm
      · exact absurd (h1.symm.trans h3) hne
  · simp only [if_neg h1, if_pos h2]
    constructor
    · intro h
      exact Or.inr (Or.inr ⟨h, h2⟩)
    · rintro (h | ⟨h3, _⟩ | ⟨h3, _⟩)
      · exact absurd (h.symm ▸ h2) (h ▸ h1)
      · exact absurd h3 h1
      · exact h3
  · simp only [if_neg h1, if_neg h2]
    constructor
    · intro h
      exact Or.inl h
    · rintro (h | ⟨h3, _⟩ | ⟨_, h4⟩)
      · exact h
      · exact absurd h3 h1
      · exact absurd h4 h2

theorem union_clusters_spec {S : Finset String} {p : String → String}
    (rank : String → Nat) {fuel : Nat} (hinv : UFInv S p)
    (hfuel : S.card ≤ fuel) {x y : String} (hx : x ∈ S) (hy : y ∈ S) :
    UFInv S (union_clusters fuel p rank x y).1 ∧
    ∀ a b, (rootN (union_clusters fuel p rank x y).1 S.card a =
        rootN (union_clusters fuel p rank x y).1 S.card b ↔
      (rootN p S.card a = rootN p S.card b ∨
       (rootN p S.card a = rootN p S.card x ∧
        rootN p S.card b = rootN p S.card y) ∨
       (rootN p S.card a = rootN p S.card y ∧
        rootN p S.card b = rootN p S.card x))) := by
  obtain ⟨hrx, hinv1, hroots1⟩ :=
    find_cluster_spec fuel p x hinv (settled_fuel hinv hfuel x)
  obtain ⟨hry, hinv2, hroots2⟩ :=
    find_cluster_spec fuel (find_cluster fuel p x).1 y hinv1
      (settled_fuel hinv1 hfuel y)
  have hroots12 : ∀ z,
      rootN (find_cluster fuel (find_cluster fuel p x).1 y).1 S.card z =
        rootN p S.card z := fun z => (hroots2 z).trans (hroots1 z)
  have hry2 : (find_cluster fuel (find_cluster fuel p x).1 y).2 =
      rootN p S.card y := by
    rw [hry, hroots1]
  have hgx : rootN p S.card x ∈ S :=
    rootedAt_mem hinv (rootN_rootedAt hinv x) hx
  have hgy : rootN p S.card y ∈ S :=
    rootedAt_mem hinv (rootN_rootedAt hinv y) hy
  unfold union_clusters
  simp only [hrx, hry2]
  by_cases heq : rootN p S.card x = rootN p S.card y
  · rw [if_pos heq]
    refine ⟨hinv2, ?_⟩
    intro a b
    rw [hroots12 a, hroots12 b]
    constructor
    · exact fun h => Or.inl h
    · rintro (h | ⟨h1, h2⟩ | ⟨h1, h2⟩)
      · exact h
      · rw [h1, h2, heq]
      · rw [h1, h2, heq]
  · rw [if_neg heq]
    have hfixrx : (find_cluster fuel (find_cluster fuel p x).1 y).1
        (rootN p S.card x) = rootN p S.card x :=
      fix_of_rootN_eq hinv2 (by rw [hroots12, rootN_idem hinv])
    have hfixry : (find_cluster fuel (find_cluster fuel p x).1 y).1
        (rootN p S.card y) = rootN p S.card y :=
      fix_of_rootN_eq hinv2 (by rw [hroots12, rootN_idem hinv])
    have hcasex : rootN (find_cluster fuel (find_cluster fuel p x).1 y).1 S.card
        (rootN p S.card x) = rootN p S.card y ∨
        rootN (find_cluster fuel (find_cluster fuel p x).1 y).1 S.card
          (rootN p S.card x) = rootN p S.card x :=
      Or.inr (by rw [hroots12, rootN_idem hinv])
    have hcasey : rootN (find_cluster fuel (find_cluster fuel p x).1 y).1 S.card
        (rootN p S.card y) = rootN p S.card x ∨
        rootN (find_cluster fuel (find_cluster fuel p x).1 y).1 S.card
          (rootN p S.card y) = rootN p S.card y :=
      Or.inr (by rw [hroots12, rootN_idem hinv])
    split
    · -- rank root_x < rank root_y : link root_x under root_y
      refine ⟨link_inv hinv2 hfixry heq hgx hgy, ?_⟩
      intro a b
      have hmap : ∀ z, rootN (Function.update
          (find_cluster fuel (find_cluster fuel p x).1 y).1
          (rootN p S.card x) (rootN p S.card y)) S.card z =
          if rootN p S.card z = rootN p S.card x then rootN p S.card y
          else rootN p S.card z := by
        intro z
        have := rootN_link hinv2 hfixry heq hcasex hgx hgy z
        rw [this, hroots12 z, hroots12, rootN_idem hinv]
      rw [hmap a, hmap b]
      rw [classes_link_iff (rootN p S.card) _ _ heq a b]
    · split
      · -- rank root_y < rank root_x : link root_y under root_x
        refine ⟨link_inv hinv2 hfixrx (fun h => heq h.symm) hgy hgx, ?_⟩
        intro a b
        have hmap : ∀ z, rootN (Function.update
            (find_cluster fuel (find_cluster fuel p x).1 y).1
            (rootN p S.card y) (rootN p S.card x)) S.card z =
            if rootN p S.card z = rootN p S.card y then rootN p S.card x
            else rootN p S.card z := by
          intro z
          have := rootN_link hinv2 hfixrx (fun h => heq h.symm) hcasey hgy hgx z
          rw [this, hroots12 z, hroots12, rootN_idem hinv]
        rw [hmap a, hmap b]
        rw [classes_link_iff (rootN p S.card) _ _ (fun h => heq h.symm) a b]
        tauto
      · -- equal ranks : link root_y under root_x, bump rank
        refine ⟨link_inv hinv2 hfixrx (fun h => heq h.symm) hgy hgx, ?_⟩
        intro a b
        have hmap : ∀ z, rootN (Function.update
            (find_cluster fuel (find_cluster fuel p x).1 y).1
            (rootN p S.card y) (rootN p S.card x)) S.card z =
            if rootN p S.card z = rootN p S.card y then rootN p S.card x
            else rootN p S.card z := by
          intro z
          have := rootN_link hinv2 hfixrx (fun h => heq h.symm) hcasey hgy hgx z
          rw [this, hroots12 z, hroots12, rootN_idem hinv]
        rw [hmap a, hmap b]
        rw [classes_link_iff (rootN p S.card) _ _ (fun h => heq h.symm) a b]
        tauto

theorem eqvGen_nil (a b : String) : Relation.EqvGen (edgeIn []) a b ↔ a = b := by
  constructor
  · intro h
    induction h with
    | rel x y hxy => exact absurd hxy (by simp [edgeIn])
    | refl x => rfl
    | symm x y _ ih => exact ih.symm
    | trans x y z _ _ ih1 ih2 => exact ih1.trans ih2
  · rintro rfl
    exact Relation.EqvGen.refl a

theorem eqvGen_mono {r r2 : String → String → Prop}
    (h : ∀ a b, r a b → r2 a b) {a b : String} (hg : Relation.EqvGen r a b) :
    Relation.EqvGen r2 a b := by
  induction hg with
  | rel x y hxy => exact Relation.EqvGen.rel x y (h x y hxy)
  | refl x => exact Relation.EqvGen.refl x
  | symm x y _ ih => exact Relation.EqvGen.symm x y ih
  | trans x y z _ _ ih1 ih2 => exact Relation.EqvGen.trans x y z ih1 ih2

theorem eqvGen_append_one (E : List (String × String)) (x y a b : String) :
    Relation.EqvGen (edgeIn (E ++ [(x, y)])) a b ↔
      (Relation.EqvGen (edgeIn E) a b ∨
       (Relation.EqvGen (edgeIn E) a x ∧ Relation.EqvGen (edgeIn E) b y) ∨
       (Relation.EqvGen (edgeIn E) a y ∧ Relation.EqvGen (edgeIn E) b x)) := by
  constructor
  · intro h
    induction h with
    | rel u v huv =>
      rcases List.mem_append.mp huv with hE | hnew
      · exact Or.inl (Relation.EqvGen.rel u v hE)
      · simp only [List.mem_singleton, Prod.mk.injEq] at hnew
        obtain ⟨rfl, rfl⟩ := hnew
        exact Or.inr (Or.inl ⟨Relation.EqvGen.refl u, Relation.EqvGen.symm _ _ (Relation.EqvGen.refl v)⟩)
    | refl u => exact Or.inl (Relation.EqvGen.refl u)
    | symm u v _ ih =>
      rcases ih with h1 | ⟨h1, h2⟩ | ⟨h1, h2⟩
      · exact Or.inl (Relation.EqvGen.symm u v h1)
      · exact Or.inr (Or.inr ⟨h2, h1⟩)
      · exact Or.inr (Or.inl ⟨h2, h1⟩)
    | trans u v w _ _ ih1 ih2 =>
      rcases ih1 with h1 | ⟨h1, h2⟩ | ⟨h1, h2⟩ <;>
        rcases ih2 with h3 | ⟨h3, h4⟩ | ⟨h3, h4⟩
      · exact Or.inl (Relation.EqvGen.trans u v w h1 h3)
      · exact Or.inr (Or.inl ⟨Relation.EqvGen.trans u v x h1 h3, h4⟩)
      · exact Or.inr (Or.inr ⟨Relation.EqvGen.trans u v y h1 h3, h4⟩)
      · exact Or.inr (Or.inl ⟨h1,
          Relation.EqvGen.trans w v y (Relation.EqvGen.symm v w h3) h2⟩)
      · exact Or.inr (Or.inl ⟨h1, h4⟩)
      · exact Or.inl (Relation.EqvGen.trans u x w h1 (Relation.EqvGen.symm w x h4))
      · exact Or.inr (Or.inr ⟨h1,
          Relation.EqvGen.trans w v x (Relation.EqvGen.symm v w h3) h2⟩)
      · exact Or.inl (Relation.EqvGen.trans u y w h1 (Relation.EqvGen.symm w y h4))
      · exact Or.inr (Or.inr ⟨h1, h4⟩)
  · have hmem : edgeIn [(x, y)] x y := by simp [edgeIn]
    have hnew : Relation.EqvGen (edgeIn (E ++ [(x, y)])) x y :=
      Relation.EqvGen.rel x y (by simp [edgeIn])
    have hup : ∀ c d, Relation.EqvGen (edgeIn E) c d → Relation.EqvGen (edgeIn (E ++ [(x, y)])) c d :=
      fun c d => eqvGen_mono (fun u v huv => by simp [edgeIn] at huv ⊢; exact Or.inl huv)
    rintro (h1 | ⟨h1, h2⟩ | ⟨h1, h2⟩)
    · exact hup _ _ h1
    · exact Relation.EqvGen.trans _ _ _ (hup _ _ h1)
        (Relation.EqvGen.trans _ _ _ hnew (Relation.EqvGen.symm _ _ (hup _ _ h2)))
    · exact Relation.EqvGen.trans _ _ _ (hup _ _ h1)
        (Relation.EqvGen.trans _ _ _ (Relation.EqvGen.symm _ _ hnew) (Relation.EqvGen.symm _ _ (hup _ _ h2)))

theorem scanInner_spec {S : Finset String} (h : String → ImageHash)
    {fuel : Nat} (hfuel : S.card ≤ fuel) (d1 : String) (hd1 : d1 ∈ S) :
    ∀ (rest : List String) (st : UFState) (E : List (String × String)),
      (∀ z ∈ rest, z ∈ S) → UFInv S st.1 →
      (∀ a b, rootN st.1 S.card a = rootN st.1 S.card b ↔
        Relation.EqvGen (edgeIn E) a b) →
      UFInv S (scanInner fuel h d1 rest st).1 ∧
      (∀ a b, rootN (scanInner fuel h d1 rest st).1 S.card a =
          rootN (scanInner fuel h d1 rest st).1 S.card b ↔
        Relation.EqvGen (edgeIn (E ++ ((rest.filter fun d2 =>
          decide (hashDist (h d1) (h d2) ≤ HASH_THRESHOLD)).map
            fun d2 => (d1, d2)))) a b) := by
  intro rest
  induction rest with
  | nil =>
    intro st E _ hinv hE
    simpa [scanInner] using ⟨hinv, hE⟩
  | cons d2 rest' ih =>
    intro st E hsub hinv hE
    have hd2 : d2 ∈ S := hsub d2 (List.mem_cons_self _ _)
    have hsub' : ∀ z ∈ rest', z ∈ S := fun z hz => hsub z (List.mem_cons_of_mem _ hz)
    by_cases hclose : hashDist (h d1) (h d2) ≤ HASH_THRESHOLD
    · obtain ⟨hinv2, hclasses⟩ :=
        union_clusters_spec st.2 hinv hfuel hd1 hd2
      have hE2 : ∀ a b,
          rootN (union_clusters fuel st.1 st.2 d1 d2).1 S.card a =
            rootN (union_clusters fuel st.1 st.2 d1 d2).1 S.card b ↔
          Relation.EqvGen (edgeIn (E ++ [(d1, d2)])) a b := by
        intro a b
        rw [hclasses a b, eqvGen_append_one, hE a b, hE a d1, hE b d2, hE a d2,
          hE b d1]
      have hrec := ih (union_clusters fuel st.1 st.2 d1 d2) (E ++ [(d1, d2)])
        hsub' hinv2 hE2
      have hrw : scanInner fuel h d1 (d2 :: rest') st =
          scanInner fuel h d1 rest' (union_clusters fuel st.1 st.2 d1 d2) := by
        simp [scanInner, hclose]
      rw [hrw]
      refine ⟨hrec.1, ?_⟩
      intro a b
      rw [hrec.2 a b]
      rw [List.filter_cons_of_pos (by simpa using hclose)]
      simp
    · have hrw : scanInner fuel h d1 (d2 :: rest') st =
          scanInner fuel h d1 rest' st := by
        simp [scanInner, hclose]
      rw [hrw]
      have hrec := ih st E hsub' hinv hE
      refine ⟨hrec.1, ?_⟩
      intro a b
      rw [hrec.2 a b, List.filter_cons_of_neg (by simpa using hclose)]

theorem filter_map_pair (h : String → ImageHash) (d1 : String) (l : List String) :
    (l.map fun d2 => (d1, d2)).filter
        (fun e => decide (hashDist (h e.1) (h e.2) ≤ HASH_THRESHOLD)) =
      (l.filter fun d2 => decide (hashDist (h d1) (h d2) ≤ HASH_THRESHOLD)).map
        fun d2 => (d1, d2) := by
  induction l with
  | nil => rfl
  | cons z zs ihz =>
    simp only [List.map_cons, List.filter_cons]
    by_cases hz : hashDist (h d1) (h z) ≤ HASH_THRESHOLD
    · simp [hz, ihz]
    · simp [hz, ihz]


theorem scanPairs_spec {S : Finset String} (h : String → ImageHash)
    {fuel : Nat} (hfuel : S.card ≤ fuel) :
    ∀ (l : List String) (st : UFState) (E : List (String × String)),
      (∀ z ∈ l, z ∈ S) → UFInv S st.1 →
      (∀ a b, rootN st.1 S.card a = rootN st.1 S.card b ↔
        Relation.EqvGen (edgeIn E) a b) →
      UFInv S (scanPairs fuel h l st).1 ∧
      (∀ a b, rootN (scanPairs fuel h l st).1 S.card a =
          rootN (scanPairs fuel h l st).1 S.card b ↔
        Relation.EqvGen (edgeIn (E ++ closeEdges h l)) a b) := by
  intro l
  induction l with
  | nil =>
    intro st E _ hinv hE
    simpa [scanPairs, closeEdges, pairsOf] using ⟨hinv, hE⟩
  | cons d1 rest ih =>
    intro st E hsub hinv hE
    have hd1 : d1 ∈ S := hsub d1 (List.mem_cons_self _ _)
    have hsub' : ∀ z ∈ rest, z ∈ S := fun z hz => hsub z (List.mem_cons_of_mem _ hz)
    obtain ⟨hinv1, hE1⟩ := scanInner_spec h hfuel d1 hd1 rest st E hsub' hinv hE
    obtain ⟨hinv2, hE2⟩ := ih (scanInner fuel h d1 rest st)
      (E ++ ((rest.filter fun d2 =>
        decide (hashDist (h d1) (h d2) ≤ HASH_THRESHOLD)).map fun d2 => (d1, d2)))
      hsub' hinv1 hE1
    refine ⟨by simpa [scanPairs] using hinv2, ?_⟩
    intro a b
    have hrw : scanPairs fuel h (d1 :: rest) st =
        scanPairs fuel h rest (scanInner fuel h d1 rest st) := by
      simp [scanPairs]
    rw [hrw, hE2 a b]
    have hedge : closeEdges h (d1 :: rest) =
        ((rest.filter fun d2 =>
          decide (hashDist (h d1) (h d2) ≤ HASH_THRESHOLD)).map
            fun d2 => (d1, d2)) ++ closeEdges h rest := by
      have hp : pairsOf (d1 :: rest) =
          (rest.map fun d2 => (d1, d2)) ++ pairsOf rest := rfl
      unfold closeEdges
      rw [hp, List.filter_append, filter_map_pair]
    rw [hedge, List.append_assoc]

theorem clusterState_spec (hs : String → ImageHash) (domains : List String) :
    UFInv domains.toFinset (clusterState hs domains).1 ∧
    ∀ a b, (rootN (clusterState hs domains).1 domains.toFinset.card a =
        rootN (clusterState hs domains).1 domains.toFinset.card b ↔
      Relation.EqvGen (edgeIn (closeEdges hs domains)) a b) := by
  have hfuel : domains.toFinset.card ≤ domains.length :=
    domains.toFinset_card_le
  have hinv0 : UFInv domains.toFinset (fun d => d) :=
    ⟨fun x => Or.inl rfl, fun x k _ => rfl⟩
  have hE0 : ∀ a b, ((fun d => d)^[domains.toFinset.card] a =
      (fun d => d)^[domains.toFinset.card] b ↔
      Relation.EqvGen (edgeIn ([] : List (String × String))) a b) := by
    intro a b
    rw [eqvGen_nil, Function.iterate_fixed rfl, Function.iterate_fixed rfl]
  obtain ⟨h1, h2⟩ := scanPairs_spec hs hfuel domains
    ((fun d => d), fun _ => 0) [] (fun z hz => List.mem_toFinset.mpr hz) hinv0 hE0
  exact ⟨h1, fun a b => by simpa [clusterState] using h2 a b⟩

theorem groupDomains_spec {S : Finset String} {fuel : Nat}
    (hfuel : S.card ≤ fuel) :
    ∀ (l : List String) (p : String → String)
      (cl : List (String × List String)), UFInv S p →
      (groupDomains fuel l p cl).2 =
        l.foldl (fun acc d => addMember acc (rootN p S.card d) d) cl := by
  intro l
  induction l with
  | nil =>
    intro p cl _
    rfl
  | cons d rest ih =>
    intro p cl hinv
    obtain ⟨hr, hinv1, hroots⟩ :=
      find_cluster_spec fuel p d hinv (settled_fuel hinv hfuel d)
    simp only [groupDomains, List.foldl_cons]
    rw [ih _ _ hinv1, hr]
    have hfun : (fun acc d2 =>
        addMember acc (rootN (find_cluster fuel p d).1 S.card d2) d2) =
        fun acc d2 => addMember acc (rootN p S.card d2) d2 := by
      funext acc d2
      rw [hroots d2]
    rw [hfun]

theorem addMember_join (cl : List (String × List String)) (r d : String) :
    ((addMember cl r d).map (·.2)).flatten.Perm
      ((cl.map (·.2)).flatten ++ [d]) := by
  induction cl with
  | nil => simp [addMember]
  | cons kv rest ih =>
    simp only [addMember]
    by_cases hk : kv.1 = r
    · rw [if_pos hk]
      simp only [List.map_cons, List.flatten_cons]
      rw [List.append_assoc, List.append_assoc]
      exact List.Perm.append_left kv.2 List.perm_append_comm
    · rw [if_neg hk]
      simp only [List.map_cons, List.flatten_cons]
      rw [List.append_assoc]
      exact List.Perm.append_left kv.2 ih

theorem keys_addMember (cl : List (String × List String)) (r d : String) :
    (addMember cl r d).map (·.1) =
      if r ∈ cl.map (·.1) then cl.map (·.1) else cl.map (·.1) ++ [r] := by
  induction cl with
  | nil => simp [addMember]
  | cons kv rest ih =>
    simp only [addMember]
    by_cases hk : kv.1 = r
    · rw [if_pos hk]
      have hmem : r ∈ (kv :: rest).map (·.1) := by
        simp [← hk]
      rw [if_pos hmem]
      simp
    · rw [if_neg hk]
      simp only [List.map_cons]
      rw [ih]
      by_cases hr : r ∈ rest.map (·.1)
      · rw [if_pos hr, if_pos (by simp [hr])]
      · rw [if_neg hr, if_neg (by
          simp only [List.map_cons, List.mem_cons]
          rintro (h1 | h1)
          · exact hk h1.symm
          · exact hr h1)]
        simp

theorem addMember_wf {g : String → String} (d : String) :
    ∀ {cl : List (String × List String)}, GroupsWF g cl →
      GroupsWF g (addMember cl (g d) d) := by
  intro cl
  induction cl with
  | nil =>
    intro _
    refine ⟨by simp [addMember], ?_, ?_⟩
    · intro kv hkv m hm
      simp [addMember] at hkv
      subst hkv
      simp at hm
      subst hm
      rfl
    · intro kv hkv
      simp [addMember] at hkv
      subst hkv
      simp
  | cons kv rest ih =>
    intro hwf
    obtain ⟨hkeys, hmem, hne⟩ := hwf
    have hwf2 : GroupsWF g rest := ⟨(List.nodup_cons.mp hkeys).2,
      fun kv2 h2 => hmem kv2 (List.mem_cons_of_mem _ h2),
      fun kv2 h2 => hne kv2 (List.mem_cons_of_mem _ h2)⟩
    obtain ⟨ihk, ihm, ihn⟩ := ih hwf2
    simp only [addMember]
    by_cases hk : kv.1 = g d
    · rw [if_pos hk]
      refine ⟨by simpa using hkeys, ?_, ?_⟩
      · intro kv2 hkv2 m hm
        rcases List.mem_cons.mp hkv2 with rfl | h2
        · simp only at hm
          rcases List.mem_append.mp hm with hm1 | hm2
          · exact hmem kv (List.mem_cons_self _ _) m hm1
          · simp at hm2
            subst hm2
            exact hk.symm
        · exact hmem kv2 (List.mem_cons_of_mem _ h2) m hm
      · intro kv2 hkv2
        rcases List.mem_cons.mp hkv2 with rfl | h2
        · simp
        · exact hne kv2 (List.mem_cons_of_mem _ h2)
    · rw [if_neg hk]
      refine ⟨?_, ?_, ?_⟩
      · simp only [List.map_cons]
        rw [List.nodup_cons]
        refine ⟨?_, ihk⟩
        rw [keys_addMember]
        have hkv1 : kv.1 ∉ rest.map (·.1) := (List.nodup_cons.mp hkeys).1
        by_cases hr : g d ∈ rest.map (·.1)
        · rw [if_pos hr]
          exact hkv1
        · rw [if_neg hr]
          simp only [List.mem_append, List.mem_singleton]
          rintro (h1 | h1)
          · exact hkv1 h1
          · exact hk h1
      · intro kv2 hkv2
        rcases List.mem_cons.mp hkv2 with rfl | h2
        · exact hmem kv2 (List.mem_cons_self _ _)
        · exact ihm kv2 h2
      · intro kv2 hkv2
        rcases List.mem_cons.mp hkv2 with rfl | h2
        · exact hne kv2 (List.mem_cons_self _ _)
        · exact ihn kv2 h2

theorem foldl_addMember_wf {g : String → String} :
    ∀ (l : List String) (cl : List (String × List String)), GroupsWF g cl →
      GroupsWF g (l.foldl (fun acc d => addMember acc (g d) d) cl) := by
  intro l
  induction l with
  | nil => intro cl h; simpa using h
  | cons d rest ih =>
    intro cl h
    simpa using ih (addMember cl (g d) d) (addMember_wf d h)

theorem foldl_addMember_join {g : String → String} :
    ∀ (l : List String) (cl : List (String × List String)),
      ((l.foldl (fun acc d => addMember acc (g d) d) cl).map (·.2)).flatten.Perm
        ((cl.map (·.2)).flatten ++ l) := by
  intro l
  induction l with
  | nil => intro cl; simp
  | cons d rest ih =>
    intro cl
    simp only [List.foldl_cons]
    refine (ih (addMember cl (g d) d)).trans ?_
    have h1 := (addMember_join cl (g d) d).append_right rest
    refine h1.trans ?_
    rw [List.append_assoc]
    exact List.Perm.refl _

theorem clustersOf_spec (hs : String → ImageHash) (domains : List String) :
    GroupsWF (rootN (clusterState hs domains).1 domains.toFinset.card)
      (clustersOf hs domains) ∧
    ((clustersOf hs domains).map (·.2)).flatten.Perm domains := by
  have hinv := (clusterState_spec hs domains).1
  have heq : clustersOf hs domains = domains.foldl
      (fun acc d => addMember acc (rootN (clusterState hs domains).1
        domains.toFinset.card d) d) [] := by
    unfold clustersOf
    exact groupDomains_spec domains.toFinset_card_le domains _ [] hinv
  rw [heq]
  constructor
  · exact foldl_addMember_wf domains []
      ⟨by simp, by simp, by simp⟩
  · simpa using foldl_addMember_join domains []

theorem mem_groups_flatten {cl : List (String × List String)} {d : String} :
    d ∈ (cl.map (·.2)).flatten ↔ ∃ kv ∈ cl, d ∈ kv.2 := by
  simp only [List.mem_flatten, List.mem_map]
  constructor
  · rintro ⟨l, ⟨kv, hkv, rfl⟩, hd⟩
    exact ⟨kv, hkv, hd⟩
  · rintro ⟨kv, hkv, hd⟩
    exact ⟨kv.2, ⟨kv, hkv, rfl⟩, hd⟩

theorem key_unique {cl : List (String × List String)}
    (hnd : (cl.map (·.1)).Nodup) {kv kv2 : String × List String}
    (h1 : kv ∈ cl) (h2 : kv2 ∈ cl) (he : kv.1 = kv2.1) : kv = kv2 := by
  induction cl with
  | nil => simp at h1
  | cons hd tl ih =>
    simp only [List.map_cons, List.nodup_cons] at hnd
    rcases List.mem_cons.mp h1 with rfl | h1' <;>
      rcases List.mem_cons.mp h2 with h2e | h2'
    · exact h2e.symm
    · refine absurd ?_ hnd.1
      rw [he]
      exact List.mem_map.mpr ⟨kv2, h2', rfl⟩
    · subst h2e
      refine absurd ?_ hnd.1
      rw [← he]
      exact List.mem_map.mpr ⟨kv, h1', rfl⟩
    · exact ih hnd.2 h1' h2'

theorem pairsOf_mem : ∀ {l : List String} {e : String × String},
    e ∈ pairsOf l → e.1 ∈ l ∧ e.2 ∈ l := by
  intro l
  induction l with
  | nil => intro e he; simp [pairsOf] at he
  | cons d rest ih =>
    intro e he
    simp only [pairsOf, List.mem_append, List.mem_map] at he
    rcases he with ⟨d2, hd2, rfl⟩ | h2
    · exact ⟨List.mem_cons_self _ _, List.mem_cons_of_mem _ hd2⟩
    · obtain ⟨h1, h2⟩ := ih h2
      exact ⟨List.mem_cons_of_mem _ h1, List.mem_cons_of_mem _ h2⟩

theorem pair_in_pairsOf : ∀ {l : List String} {u v : String},
    u ∈ l → v ∈ l → u ≠ v → (u, v) ∈ pairsOf l ∨ (v, u) ∈ pairsOf l := by
  intro l
  induction l with
  | nil => intro u v hu _ _; simp at hu
  | cons d rest ih =>
    intro u v hu hv hne
    rcases List.mem_cons.mp hu with rfl | hu' <;>
      rcases List.mem_cons.mp hv with he | hv'
    · exact absurd he.symm hne
    · left
      simp only [pairsOf, List.mem_append, List.mem_map]
      exact Or.inl ⟨v, hv', rfl⟩
    · subst he
      right
      simp only [pairsOf, List.mem_append, List.mem_map]
      exact Or.inl ⟨u, hu', rfl⟩
    · rcases ih hu' hv' hne with h | h
      · left
        simp only [pairsOf, List.mem_append]
        exact Or.inr h
      · right
        simp only [pairsOf, List.mem_append]
        exact Or.inr h

theorem hashDist_comm (a b : ImageHash) : hashDist a b = hashDist b a := by
  unfold hashDist
  rw [List.zipWith_comm_of_comm xor Bool.xor_comm]

theorem eqvGen_edges_iff_dist (hs : String → ImageHash) (domains : List String)
    (a b : String) :
    Relation.EqvGen (edgeIn (closeEdges hs domains)) a b ↔
      Relation.EqvGen (fun u v => u ∈ domains ∧ v ∈ domains ∧
        hashDist (hs u) (hs v) ≤ HASH_THRESHOLD) a b := by
  constructor
  · apply eqvGen_mono
    intro u v huv
    unfold edgeIn closeEdges at huv
    obtain ⟨hpair, hdist⟩ := List.mem_filter.mp huv
    obtain ⟨h1, h2⟩ := pairsOf_mem hpair
    exact ⟨h1, h2, by simpa using hdist⟩
  · intro h
    induction h with
    | rel u v huv =>
      obtain ⟨hu, hv, hd⟩ := huv
      by_cases hne : u = v
      · subst hne
        exact Relation.EqvGen.refl u
      · rcases pair_in_pairsOf hu hv hne with hp | hp
        · refine Relation.EqvGen.rel u v ?_
          unfold edgeIn closeEdges
          exact List.mem_filter.mpr ⟨hp, by simpa using hd⟩
        · refine Relation.EqvGen.symm v u (Relation.EqvGen.rel v u ?_)
          unfold edgeIn closeEdges
          refine List.mem_filter.mpr ⟨hp, ?_⟩
          simpa [hashDist_comm] using hd
    | refl u => exact Relation.EqvGen.refl u
    | symm u v _ ih => exact Relation.EqvGen.symm u v ih
    | trans u v w _ _ ih1 ih2 => exact Relation.EqvGen.trans u v w ih1 ih2

theorem eqvGen_iff_rtg_of_symm {r : String → String → Prop}
    (hsym : Symmetric r) (a b : String) :
    Relation.EqvGen r a b ↔ Relation.ReflTransGen r a b := by
  constructor
  · intro h
    induction h with
    | rel u v huv => exact Relation.ReflTransGen.single huv
    | refl u => exact Relation.ReflTransGen.refl
    | symm u v _ ih => exact Relation.ReflTransGen.symmetric hsym ih
    | trans u v w _ _ ih1 ih2 => exact ih1.trans ih2
  · intro h
    induction h with
    | refl => exact Relation.EqvGen.refl a
    | tail _ hstep ih =>
      exact Relation.EqvGen.trans _ _ _ ih (Relation.EqvGen.rel _ _ hstep)

theorem sameCluster_iff_rootEq (hs : String → ImageHash) (domains : List String)
    {x y : String} (hx : x ∈ domains) (hy : y ∈ domains) :
    (∃ kv ∈ clustersOf hs domains, x ∈ kv.2 ∧ y ∈ kv.2) ↔
      rootN (clusterState hs domains).1 domains.toFinset.card x =
        rootN (clusterState hs domains).1 domains.toFinset.card y := by
  obtain ⟨hwf, hperm⟩ := clustersOf_spec hs domains
  constructor
  · rintro ⟨kv, hkv, hxm, hym⟩
    rw [hwf.2.1 kv hkv x hxm, hwf.2.1 kv hkv y hym]
  · intro hroot
    have hxj : x ∈ ((clustersOf hs domains).map (·.2)).flatten :=
      hperm.mem_iff.mpr hx
    have hyj : y ∈ ((clustersOf hs domains).map (·.2)).flatten :=
      hperm.mem_iff.mpr hy
    obtain ⟨kv, hkv, hxm⟩ := mem_groups_flatten.mp hxj
    obtain ⟨kv2, hkv2, hym⟩ := mem_groups_flatten.mp hyj
    have hk1 := hwf.2.1 kv hkv x hxm
    have hk2 := hwf.2.1 kv2 hkv2 y hym
    have hkeq : kv.1 = kv2.1 := by rw [← hk1, ← hk2, hroot]
    have := key_unique hwf.1 hkv hkv2 hkeq
    subst this
    exact ⟨kv, hkv, hxm, hym⟩

theorem singleton_cluster_eq (hs : String → ImageHash) (domains : List String)
    {kv : String × List String} (hkv : kv ∈ clustersOf hs domains)
    (hlen : kv.2.length = 1) : kv.2 = [kv.1] := by
  obtain ⟨hwf, hperm⟩ := clustersOf_spec hs domains
  obtain ⟨m, hm⟩ := List.length_eq_one.mp hlen
  have hkm : rootN (clusterState hs domains).1 domains.toFinset.card m = kv.1 :=
    hwf.2.1 kv hkv m (by rw [hm]; exact List.mem_singleton_self m)
  have hmd : m ∈ domains :=
    hperm.mem_iff.mp (mem_groups_flatten.mpr ⟨kv, hkv, by
      rw [hm]; exact List.mem_singleton_self m⟩)
  have hinv := (clusterState_spec hs domains).1
  have hk_dom : kv.1 ∈ domains := by
    rw [← hkm]
    exact List.mem_toFinset.mp
      (rootedAt_mem hinv (rootN_rootedAt hinv m) (List.mem_toFinset.mpr hmd))
  have hroot_idem : rootN (clusterState hs domains).1 domains.toFinset.card kv.1 =
      kv.1 := by
    rw [← hkm, rootN_idem hinv, hkm]
  obtain ⟨kv2, hkv2, hk1m⟩ := mem_groups_flatten.mp (hperm.mem_iff.mpr hk_dom)
  have hkey2 : kv2.1 = kv.1 := by
    rw [← hwf.2.1 kv2 hkv2 kv.1 hk1m, hroot_idem]
  have hsame := key_unique hwf.1 hkv2 hkv hkey2
  subst hsame
  rw [hm] at hk1m ⊢
  simp at hk1m
  rw [hk1m]

theorem join_map_of_singletons :
    ∀ L : List (String × List String), (∀ kv ∈ L, kv.2 = [kv.1]) →
      (L.map (·.2)).flatten = L.map (·.1) := by
  intro L
  induction L with
  | nil => intro _; rfl
  | cons kv rest ih =>
    intro h
    simp only [List.map_cons, List.flatten_cons]
    rw [h kv (List.mem_cons_self _ _), ih (fun z hz => h z (List.mem_cons_of_mem _ hz))]
    rfl

theorem filter_one_eq (hs : String → ImageHash) (domains : List String) :
    (clustersOf hs domains).filter (fun kv => !decide (1 < kv.2.length)) =
      (clustersOf hs domains).filter (fun kv => decide (kv.2.length = 1)) := by
  apply List.filter_congr
  intro kv hkv
  have hne : kv.2 ≠ [] := (clustersOf_spec hs domains).1.2.2 kv hkv
  have hlen : kv.2.length ≠ 0 := fun h => hne (List.length_eq_zero.mp h)
  rcases Nat.lt_or_ge 1 kv.2.length with h | h
  · simp [h, Nat.ne_of_gt h]
  · have h1 : kv.2.length = 1 := by omega
    simp [h1]


theorem flatten_map_singleton : ∀ l : List String,
    (l.map (fun d => [d])).flatten = l := by
  intro l
  induction l with
  | nil => rfl
  | cons d rest ih =>
    simp only [List.map_cons, List.flatten_cons, ih]
    rfl

theorem sameOutput_iff_sameCluster (hs : String → ImageHash)
    (domains : List String) (x y : String) :
    (∃ gr ∈ outputGroups hs domains, x ∈ gr ∧ y ∈ gr) ↔
      (∃ kv ∈ clustersOf hs domains, x ∈ kv.2 ∧ y ∈ kv.2) := by
  unfold outputGroups multiClusters singletonsOf
  constructor
  · rintro ⟨gr, hgr, hxg, hyg⟩
    rcases List.mem_append.mp hgr with h1 | h2
    · obtain ⟨kv, hkv, rfl⟩ := List.mem_map.mp h1
      exact ⟨kv, List.mem_of_mem_filter hkv, hxg, hyg⟩
    · obtain ⟨k, hk, rfl⟩ := List.mem_map.mp h2
      obtain ⟨kv, hkv, rfl⟩ := List.mem_map.mp hk
      have hkvc : kv ∈ clustersOf hs domains := List.mem_of_mem_filter hkv
      have hlen : kv.2.length = 1 := by
        have := List.of_mem_filter hkv
        simpa using this
      have hsing := singleton_cluster_eq hs domains hkvc hlen
      refine ⟨kv, hkvc, ?_, ?_⟩
      · rw [hsing]; exact hxg
      · rw [hsing]; exact hyg
  · rintro ⟨kv, hkv, hxm, hym⟩
    rcases Nat.lt_or_ge 1 kv.2.length with h | h
    · refine ⟨kv.2, List.mem_append.mpr (Or.inl ?_), hxm, hym⟩
      exact List.mem_map.mpr ⟨kv, List.mem_filter.mpr ⟨hkv, by simpa using h⟩, rfl⟩
    · have hne : kv.2 ≠ [] := (clustersOf_spec hs domains).1.2.2 kv hkv
      have hlen : kv.2.length = 1 := by
        have : kv.2.length ≠ 0 := fun h0 => hne (List.length_eq_zero.mp h0)
        omega
      have hsing := singleton_cluster_eq hs domains hkv hlen
      refine ⟨[kv.1], List.mem_append.mpr (Or.inr ?_), ?_, ?_⟩
      · refine List.mem_map.mpr ⟨kv.1, ?_, rfl⟩
        refine List.mem_map.mpr ⟨kv, List.mem_filter.mpr ⟨hkv, by simpa using hlen⟩, rfl⟩
      · rw [← hsing]; exact hxm
      · rw [← hsing]; exact hym

/-- C5: the emitted groups — multi-member clusters plus singletons — are
a partition of exactly the input domain set: their concatenation is a
permutation of the domain list and contains no duplicates, so every
domain with a hash appears in exactly one output group and a domain
absent from the mapping appears in none. -/
theorem C5_partition (hs : String → ImageHash) (domains : List String)
    (hnd : domains.Nodup) :
    (outputGroups hs domains).flatten.Perm domains ∧
    (outputGroups hs domains).flatten.Nodup := by
  have hsingle_join : ((((clustersOf hs domains).filter
      fun kv => decide (kv.2.length = 1)).map (·.2)).flatten) =
      (((clustersOf hs domains).filter
        fun kv => decide (kv.2.length = 1)).map (·.1)) := by
    apply join_map_of_singletons
    intro kv hkv
    exact singleton_cluster_eq hs domains (List.mem_of_mem_filter hkv)
      (by simpa using List.of_mem_filter hkv)
  have hperm : (outputGroups hs domains).flatten.Perm domains := by
    unfold outputGroups multiClusters singletonsOf
    rw [List.flatten_append, flatten_map_singleton, ← hsingle_join,
      ← List.flatten_append, ← List.map_append]
    refine List.Perm.trans ?_ (clustersOf_spec hs domains).2
    apply List.Perm.flatten
    apply List.Perm.map
    rw [← filter_one_eq]
    exact List.filter_append_perm _ _
  exact ⟨hperm, hperm.nodup_iff.mpr hnd⟩

/-- Witness for C5: the three-domain example `A`, `B`, `C` is grouped
into output groups whose concatenation is a permutation of the input
list, with no duplicates. -/
theorem C5_witness :
    ["A", "B", "C"].Nodup ∧
    (outputGroups hashesABC ["A", "B", "C"]).flatten.Perm ["A", "B", "C"] ∧
    (outputGroups hashesABC ["A", "B", "C"]).flatten.Nodup :=
  ⟨by decide, (C5_partition hashesABC ["A", "B", "C"] (by decide)).1,
    (C5_partition hashesABC ["A", "B", "C"] (by decide)).2⟩

theorem distRel_symm (hs : String → ImageHash) (domains : List String) :
    Symmetric (fun u v => u ∈ domains ∧ v ∈ domains ∧
      hashDist (hs u) (hs v) ≤ HASH_THRESHOLD) := by
  rintro u v ⟨hu, hv, hd⟩
  exact ⟨hv, hu, by rwa [hashDist_comm]⟩

/-- C1: two domains of the input mapping land in the same output cluster
precisely when they are joined by a chain of domains whose consecutive
Hamming distances are each at most the (inclusive) threshold of 8 —
transitive merging through intermediate domains, independent of the
direct distance between the two endpoints. -/
theorem C1_clusters_iff_chain (hs : String → ImageHash) (domains : List String)
    (hnd : domains.Nodup) (x y : String) (hx : x ∈ domains) (hy : y ∈ domains) :
    (∃ gr ∈ outputGroups hs domains, x ∈ gr ∧ y ∈ gr) ↔
      ∃ c : List String, List.Chain (fun a b => a ∈ domains ∧ b ∈ domains ∧
          hashDist (hs a) (hs b) ≤ HASH_THRESHOLD) x c ∧
        (x :: c).getLast (List.cons_ne_nil _ _) = y := by
  rw [sameOutput_iff_sameCluster, sameCluster_iff_rootEq hs domains hx hy,
    (clusterState_spec hs domains).2 x y, eqvGen_edges_iff_dist,
    eqvGen_iff_rtg_of_symm (distRel_symm hs domains)]
  constructor
  · intro h
    exact List.exists_chain_of_relationReflTransGen h
  · rintro ⟨c, hc, hlast⟩
    exact List.relationReflTransGen_of_exists_chain c hc hlast

/-- Witness for C1: with distances `A-B = 5`, `B-C = 6` and `A-C = 9`,
the chain through `B` places `A` and `C` in one output cluster even
though their direct distance exceeds the threshold. -/
theorem C1_witness :
    hashDist (hashesABC "A") (hashesABC "C") = 9 ∧
    ∃ gr ∈ outputGroups hashesABC ["A", "B", "C"], "A" ∈ gr ∧ "C" ∈ gr :=
  ⟨by decide,
   (C1_clusters_iff_chain hashesABC ["A", "B", "C"] (by decide) "A" "C"
      (by decide) (by decide)).mpr
    ⟨["B", "C"],
     List.Chain.cons ⟨by decide, by decide, by decide⟩
       (List.Chain.cons ⟨by decide, by decide, by decide⟩ List.Chain.nil),
     by decide⟩⟩

theorem exists_ne_of_nodup_of_lt_length {l : List String} (hnd : l.Nodup)
    (hlen : 1 < l.length) (x : String) (hx : x ∈ l) : ∃ w ∈ l, w ≠ x := by
  by_contra hall
  push_neg at hall
  rcases l with _ | ⟨a, _ | ⟨b, rest⟩⟩
  · simp at hlen
  · simp at hlen
  · have ha : a = x := hall a (by simp)
    have hb : b = x := hall b (by simp)
    rw [List.nodup_cons] at hnd
    exact hnd.1 (by rw [ha, hb]; simp)


theorem rtg_first_step {r : String → String → Prop} {x y : String}
    (h : Relation.ReflTransGen r x y) (hne : x ≠ y) :
    ∃ z, r x z ∧ z ≠ x := by
  induction h using Relation.ReflTransGen.head_induction_on with
  | refl => exact absurd rfl hne
  | head hstep _ ih =>
    rename_i a c _
    by_cases hac : c = a
    · subst hac
      exact ih hne
    · exact ⟨c, hstep, hac⟩

/-- C10: in every multi-member output cluster, each member is within the
Hamming-distance threshold of at least one other member of the same
cluster — a domain only joins a larger cluster through a union triggered
by a pair within the threshold that involves it. -/
theorem C10_cluster_members_close (hs : String → ImageHash)
    (domains : List String) (hnd : domains.Nodup)
    (kv : String × List String) (hkv : kv ∈ multiClusters hs domains)
    (x : String) (hx : x ∈ kv.2) :
    ∃ y ∈ kv.2, y ≠ x ∧ hashDist (hs x) (hs y) ≤ HASH_THRESHOLD := by
  obtain ⟨hwf, hperm⟩ := clustersOf_spec hs domains
  have hkvc : kv ∈ clustersOf hs domains := List.mem_of_mem_filter hkv
  have hlen : 1 < kv.2.length := by
    have := List.of_mem_filter hkv
    simpa using this
  have hjoin_nodup : ((clustersOf hs domains).map (·.2)).flatten.Nodup :=
    hperm.nodup_iff.mpr hnd
  have hmem_nodup : kv.2.Nodup :=
    (List.sublist_flatten_of_mem
      (List.mem_map.mpr ⟨kv, hkvc, rfl⟩)).nodup hjoin_nodup
  obtain ⟨w, hw, hwx⟩ := exists_ne_of_nodup_of_lt_length hmem_nodup hlen x hx
  have hxd : x ∈ domains := hperm.mem_iff.mp (mem_groups_flatten.mpr ⟨kv, hkvc, hx⟩)
  have hwd : w ∈ domains := hperm.mem_iff.mp (mem_groups_flatten.mpr ⟨kv, hkvc, hw⟩)
  have hsame : ∃ kv2 ∈ clustersOf hs domains, x ∈ kv2.2 ∧ w ∈ kv2.2 :=
    ⟨kv, hkvc, hx, hw⟩
  have hroot := (sameCluster_iff_rootEq hs domains hxd hwd).mp hsame
  have hrtg := (eqvGen_iff_rtg_of_symm (distRel_symm hs domains) x w).mp
    ((eqvGen_edges_iff_dist hs domains x w).mp
      (((clusterState_spec hs domains).2 x w).mp hroot))
  obtain ⟨z, hz, hzx⟩ := rtg_first_step hrtg (fun he => hwx he.symm)
  obtain ⟨hxz, hzd, hdist⟩ := hz
  have hzroot : ∃ kv2 ∈ clustersOf hs domains, x ∈ kv2.2 ∧ z ∈ kv2.2 := by
    apply (sameCluster_iff_rootEq hs domains hxd hzd).mpr
    apply ((clusterState_spec hs domains).2 x z).mpr
    apply (eqvGen_edges_iff_dist hs domains x z).mpr
    exact Relation.EqvGen.rel x z ⟨hxz, hzd, hdist⟩
  obtain ⟨kv2, hkv2, hxm2, hzm2⟩ := hzroot
  have : kv2 = kv := by
    apply key_unique hwf.1 hkv2 hkvc
    rw [← hwf.2.1 kv2 hkv2 x hxm2, hwf.2.1 kv hkvc x hx]
  subst this
  exact ⟨z, hzm2, hzx, hdist⟩

/-- Witness for C10: in the merged cluster of `A`, `B`, `C`, member `C`
(at distance 9 from `A`) is within the threshold of member `B`. -/
theorem C10_witness :
    ("A", ["A", "B", "C"]) ∈ multiClusters hashesABC ["A", "B", "C"] ∧
    ∃ y ∈ ["A", "B", "C"], y ≠ "C" ∧
      hashDist (hashesABC "C") (hashesABC y) ≤ HASH_THRESHOLD :=
  ⟨by decide, C10_cluster_members_close hashesABC ["A", "B", "C"] (by decide)
    ("A", ["A", "B", "C"]) (by decide) "C" (by decide)⟩

theorem charListLtB_irrefl : ∀ l : List Char, charListLtB l l = false := by
  intro l
  induction l with
  | nil => rfl
  | cons x xs ih => simp [charListLtB, charLtB, ih]

theorem charListLtB_trans :
    ∀ {a b c : List Char}, charListLtB a b = true → charListLtB b c = true →
      charListLtB a c = true := by
  intro a
  induction a with
  | nil =>
    intro b c h1 h2
    cases b with
    | nil => simp [charListLtB] at h1
    | cons y ys =>
      cases c with
      | nil => simp [charListLtB] at h2
      | cons z zs => rfl
  | cons x xs ih =>
    intro b c h1 h2
    cases b with
    | nil => simp [charListLtB] at h1
    | cons y ys =>
      cases c with
      | nil => simp [charListLtB] at h2
      | cons z zs =>
        simp only [charListLtB] at h1 h2 ⊢
        rcases Nat.lt_trichotomy x.toNat y.toNat with hxy | hxy | hxy
        · rcases Nat.lt_trichotomy y.toNat z.toNat with hyz | hyz | hyz
          · simp [charLtB, show x.toNat < z.toNat by omega]
          · simp [charLtB, show x.toNat < z.toNat by omega]
          · simp [charLtB, show ¬ y.toNat < z.toNat by omega, hyz] at h2
        · rcases Nat.lt_trichotomy y.toNat z.toNat with hyz | hyz | hyz
          · simp [charLtB, show x.toNat < z.toNat by omega]
          · simp [charLtB, show ¬ x.toNat < y.toNat by omega,
              show ¬ y.toNat < x.toNat by omega] at h1
            simp [charLtB, show ¬ y.toNat < z.toNat by omega,
              show ¬ z.toNat < y.toNat by omega] at h2
            simp [charLtB, show ¬ x.toNat < z.toNat by omega,
              show ¬ z.toNat < x.toNat by omega]
            exact ih h1 h2
          · simp [charLtB, show ¬ y.toNat < z.toNat by omega, hyz] at h2
        · simp [charLtB, show ¬ x.toNat < y.toNat by omega, hxy] at h1

theorem strLtB_trans {a b c : String} (h1 : strLtB a b = true)
    (h2 : strLtB b c = true) : strLtB a c = true :=
  charListLtB_trans h1 h2

theorem strLtB_asymm {a b : String} (h : strLtB a b = true) :
    strLtB b a = false := by
  by_contra hc
  have hba : strLtB b a = true := by
    cases hv : strLtB b a
    · exact absurd hv hc
    · rfl
  have h2 := strLtB_trans h hba
  unfold strLtB at h2
  rw [charListLtB_irrefl] at h2
  simp at h2

theorem insertAsc_perm (x : String) (l : List String) :
    (insertAsc x l).Perm (x :: l) := by
  induction l with
  | nil => simp [insertAsc]
  | cons y ys ih =>
    simp only [insertAsc]
    split
    · exact List.Perm.refl _
    · exact (ih.cons y).trans (List.Perm.swap x y ys)

theorem insertAsc_pairwise (x : String) {l : List String}
    (h : l.Pairwise fun a b => strLtB b a = false) :
    (insertAsc x l).Pairwise fun a b => strLtB b a = false := by
  induction l with
  | nil => simp [insertAsc]
  | cons y ys ih =>
    rcases List.pairwise_cons.mp h with ⟨hy, hys⟩
    simp only [insertAsc]
    split
    · rename_i hlt
      refine List.pairwise_cons.mpr ⟨?_, h⟩
      intro z hz
      rcases List.mem_cons.mp hz with rfl | hz2
      · exact strLtB_asymm hlt
      · cases hv : strLtB z x
        · rfl
        · have := strLtB_trans hv hlt
          rw [hy z hz2] at this
          simp at this
    · rename_i hge
      refine List.pairwise_cons.mpr ⟨?_, ih hys⟩
      intro z hz
      have hz3 := (insertAsc_perm x ys).mem_iff.mp hz
      rcases List.mem_cons.mp hz3 with rfl | hz4
      · cases hv : strLtB z y
        · rfl
        · exact absurd hv hge
      · exact hy z hz4

theorem sortAsc_pairwise (l : List String) :
    (sortAsc l).Pairwise fun a b => strLtB b a = false := by
  have haux : ∀ (l2 acc : List String),
      (acc.Pairwise fun a b => strLtB b a = false) →
      ((l2.foldl (fun a x => insertAsc x a) acc).Pairwise
        fun a b => strLtB b a = false) := by
    intro l2
    induction l2 with
    | nil => intro acc h; simpa using h
    | cons x xs ih =>
      intro acc h
      simpa using ih (insertAsc x acc) (insertAsc_pairwise x h)
  simpa [sortAsc] using haux l [] (by simp)

theorem sortAsc_perm (l : List String) : (sortAsc l).Perm l := by
  have haux : ∀ (l2 acc : List String),
      (l2.foldl (fun a x => insertAsc x a) acc).Perm (acc ++ l2) := by
    intro l2
    induction l2 with
    | nil => intro acc; simp
    | cons x xs ih =>
      intro acc
      simp only [List.foldl_cons]
      refine (ih (insertAsc x acc)).trans ?_
      refine ((insertAsc_perm x acc).append_right xs).trans ?_
      simpa using List.perm_middle.symm
  simpa [sortAsc] using haux l []

/-- C6 counterexample: with two tied clusters `{a1, a2}` and `{b1, b2}`,
the report emits them in first-appearance order, not in lexicographic
order of their sorted member lists — the `b` cluster comes first when
`b1` precedes `a1` in the mapping — and consequently two iteration
orders of the same mapping yield different reports. -/
theorem C6_counterexample :
    reportOf hashesTwoPairs ["b1", "b2", "a1", "a2"] ≠
      reportOf hashesTwoPairs ["a1", "a2", "b1", "b2"] ∧
    (reportOf hashesTwoPairs ["b1", "b2", "a1", "a2"]).multis =
      [(2, ["b1", "b2"]), (2, ["a1", "a2"])] := by
  constructor
  · decide
  · decide

/-- C6 (amended): the report lists multi-member clusters sorted by
descending member count with ties kept in first-appearance order (the
filter of the emitted order at any fixed count equals the dictionary
order), each emitted member list sorted lexicographically and labelled
with its member count, and the singletons sorted lexicographically; the
report is a deterministic function of the mapping's iteration order but
not independent of it. -/
theorem C6_report_order (hs : String → ImageHash) (domains : List String) :
    ((reportOf hs domains).multis.Pairwise fun a b => b.1 ≤ a.1) ∧
    (∀ m ∈ (reportOf hs domains).multis,
      (m.2.Pairwise fun a b => strLtB b a = false) ∧ m.1 = m.2.length) ∧
    ((reportOf hs domains).singles.Pairwise fun a b => strLtB b a = false) ∧
    (∀ n : Nat,
      (sortDescBy (fun kv => kv.2.length) (multiClusters hs domains)).filter
          (fun kv => decide (kv.2.length = n)) =
        (multiClusters hs domains).filter (fun kv => decide (kv.2.length = n))) := by
  refine ⟨?_, ?_, ?_, ?_⟩
  · unfold reportOf
    apply List.Pairwise.map
    · intro a b hab
      exact hab
    · exact sortDescBy_pairwise (fun kv => kv.2.length) (multiClusters hs domains)
  · intro m hm
    unfold reportOf at hm
    obtain ⟨kv, _, rfl⟩ := List.mem_map.mp hm
    refine ⟨sortAsc_pairwise kv.2, ?_⟩
    exact ((sortAsc_perm kv.2).length_eq).symm
  · exact sortAsc_pairwise _
  · intro n
    exact sortDescBy_filter_eq (fun kv : String × List String => kv.2.length) n _
